import Mathlib

/-!
Verification development for the `weight-tracker` terminal application
(`src/main.rs`).  The Rust program keeps a store of `(date-string, f64)`
records, validates free-text date/weight input, renders a time-windowed
chart, and imports/exports a two-column CSV format.

Shallow embedding conventions:
* Rust `String` / `&str` values are modelled as `List Char` (`Str`).
* `chrono::NaiveDate` is modelled by the `Date` structure below with the
  standard proleptic Gregorian calendar.  `NaiveDate` ordering is
  chronological, which for valid dates coincides with lexicographic
  ordering on `(year, month, day)`; day differences are modelled with the
  standard days-from-civil conversion `Date.toDays`.
* `f64` values are modelled by `PFloat`: either NaN, an infinity, or the
  exact rational value of the decimal literal the float was parsed from.
  A finite model value `q` denotes the correctly rounded binary64 of
  `q`; the one comparison whose outcome rounding can change — the
  `w > 0f64` validation guard, where positive literals at or below
  `2 ^ (-1075)` underflow to `+0.0` and are rejected — is modelled with
  the exact rounding threshold (see `PFloat.gtZero`), and every other
  use (one-decimal literals, signs, infinities) is exact.
* Fallible Rust code (panics via out-of-range indexing or `unwrap`, and
  `io::Result` errors) is modelled with `Except RunErr`.
-/

/-- A string, modelled as its character list (Rust `String`). -/
abbrev Str := List Char

/-! ## Calendar (model of the `chrono::NaiveDate` operations used) -/

/-- A calendar date.  `chrono::NaiveDate` for the dates this program
handles (common-era dates). -/
structure Date where
  year : Int
  month : Nat
  day : Nat
deriving DecidableEq, Repr

instance : Inhabited Date := ⟨⟨1, 1, 1⟩⟩

/-- Gregorian leap-year test. -/
def Date.isLeapYear (y : Int) : Bool :=
  (y % 4 == 0 && y % 100 != 0) || y % 400 == 0

/-- Number of days in a month (0 for an invalid month number). -/
def Date.daysInMonth (y : Int) (m : Nat) : Nat :=
  match m with
  | 1 => 31
  | 2 => if Date.isLeapYear y then 29 else 28
  | 3 => 31
  | 4 => 30
  | 5 => 31
  | 6 => 30
  | 7 => 31
  | 8 => 31
  | 9 => 30
  | 10 => 31
  | 11 => 30
  | 12 => 31
  | _ => 0

/-- Validity of a year/month/day triple as a real calendar date. -/
def Date.validYmd (y : Int) (m d : Nat) : Bool :=
  1 ≤ m && m ≤ 12 && 1 ≤ d && d ≤ Date.daysInMonth y m

/-- Validity of a `Date`. -/
def Date.valid (dt : Date) : Bool :=
  Date.validYmd dt.year dt.month dt.day

/-- Days since 1970-01-01 (standard civil-from-date conversion; the
model of `chrono` day-difference arithmetic: `(a - b).num_days()` is
`a.toDays - b.toDays`). -/
def Date.toDays (dt : Date) : Int :=
  let y : Int := if dt.month ≤ 2 then dt.year - 1 else dt.year
  let era : Int := (if 0 ≤ y then y else y - 399) / 400
  let yoe : Int := y - era * 400
  let mp : Int := (dt.month + 9) % 12
  let doy : Int := (153 * mp + 2) / 5 + (dt.day : Int) - 1
  let doe : Int := yoe * 365 + yoe / 4 - yoe / 100 + doy
  era * 146097 + doe - 719468

/-- The previous calendar day (model of `checked_sub_days(Days::new(1))`
on a valid date). -/
def Date.predDay (dt : Date) : Date :=
  if 1 < dt.day then { dt with day := dt.day - 1 }
  else if 1 < dt.month then
    ⟨dt.year, dt.month - 1, Date.daysInMonth dt.year (dt.month - 1)⟩
  else ⟨dt.year - 1, 12, 31⟩

/-- The next calendar day (model of `checked_add_days(Days::new(1))`
on a valid date). -/
def Date.succDay (dt : Date) : Date :=
  if dt.day < Date.daysInMonth dt.year dt.month then
    { dt with day := dt.day + 1 }
  else if dt.month < 12 then ⟨dt.year, dt.month + 1, 1⟩
  else ⟨dt.year + 1, 1, 1⟩

/-- Shift a date by `n` calendar months, clamping the day to the length
of the target month (model of `chrono` `checked_add_months` /
`checked_sub_months`, which never fail for the practical date ranges
this program uses). -/
def Date.shiftMonths (dt : Date) (n : Int) : Date :=
  let mi : Int := dt.year * 12 + ((dt.month : Int) - 1) + n
  let y : Int := mi.fdiv 12
  let m : Nat := (mi.fmod 12).toNat + 1
  ⟨y, m, min dt.day (Date.daysInMonth y m)⟩

/-- Chronological strict order on dates, as a boolean.  For valid dates
this is exactly the `Ord` ordering of `chrono::NaiveDate`. -/
def Date.ltb (a b : Date) : Bool :=
  a.year < b.year ||
    (a.year == b.year &&
      (a.month < b.month || (a.month == b.month && a.day < b.day)))

/-- The three-way date comparison used by the binary-search closure in
`App::modify_data`: `if lhs < rhs { Less } else if lhs == rhs { Equal }
else { Greater }`. -/
def Date.cmp (a b : Date) : Ordering :=
  if Date.ltb a b then .lt else if a = b then .eq else .gt

/-! ## Character and string utilities -/

/-- Numeric value of a decimal digit character. -/
def digitVal (c : Char) : Nat := c.toNat - 48

/-- Splits a character list at every separator recognised by `p`,
keeping empty segments (Rust `str::split`): the model of
`lines.split(['\r', '\n'])` and `x.split(',')`. -/
def splitChars (p : Char → Bool) : Str → List Str
  | [] => [[]]
  | c :: cs =>
    if p c then [] :: splitChars p cs
    else
      match splitChars p cs with
      | [] => [[c]]
      | h :: t => (c :: h) :: t

/-- Removes leading and trailing whitespace (Rust `str::trim`,
restricted to the ASCII whitespace this program ever meets). -/
def trimChars (cs : Str) : Str :=
  ((cs.dropWhile Char.isWhitespace).reverse.dropWhile Char.isWhitespace).reverse

/-- Is the character one of the line separators `'\r'`, `'\n'`? -/
def isLineBreak (c : Char) : Bool := c = '\r' || c = '\n'

/-- Numeric value of a digit string, most significant digit first. -/
def digitsToNat (ds : Str) : Nat :=
  ds.foldl (fun a c => 10 * a + digitVal c) 0

/-- Decimal digits of `n`, least significant first (auxiliary; `fuel`
bounds the recursion and is always called with `fuel ≥ n`). -/
def natDigitsRev (fuel n : Nat) : Str :=
  match fuel with
  | 0 => []
  | fuel + 1 => if n = 0 then [] else Nat.digitChar (n % 10) :: natDigitsRev fuel (n / 10)

/-- Decimal digit string of `n`, most significant digit first. -/
def natDigits (n : Nat) : Str :=
  if n = 0 then ['0'] else (natDigitsRev n n).reverse

/-- `n` zero-padded to (at least) two digits, as the `chrono` `%d` / `%m`
format specifiers produce. -/
def pad2 (n : Nat) : Str :=
  if n < 10 then '0' :: natDigits n else natDigits n

/-- `y` zero-padded to (at least) four digits, as the `chrono` `%Y` specifier
produces for common-era years. -/
def pad4 (y : Int) : Str :=
  let ds := natDigits y.toNat
  let pad := List.replicate (4 - ds.length) '0'
  (if y < 0 then ['-'] else []) ++ pad ++ ds

/-- `date.format("%d-%m-%Y")`. -/
def fmtDate (dt : Date) : Str :=
  pad2 dt.day ++ '-' :: pad2 dt.month ++ '-' :: pad4 dt.year

/-- Model of `NaiveDate::parse_from_str(s, "%d-%m-%Y")` on a
canonically zero-padded `DD-MM-YYYY` string: exactly two day digits,
two month digits, four year digits and a real calendar date.
(`chrono` additionally accepts some non-padded variants; all theorems
below only quantify over canonical `DD-MM-YYYY` strings, where the two
parsers agree.) -/
def parseDate (s : Str) : Option Date :=
  match s with
  | [d1, d2, h1, m1, m2, h2, y1, y2, y3, y4] =>
    if d1.isDigit && d2.isDigit && h1 = '-' && m1.isDigit && m2.isDigit &&
        h2 = '-' && y1.isDigit && y2.isDigit && y3.isDigit && y4.isDigit then
      let d := 10 * digitVal d1 + digitVal d2
      let m := 10 * digitVal m1 + digitVal m2
      let y : Int := ((1000 * digitVal y1 + 100 * digitVal y2 + 10 * digitVal y3 + digitVal y4 : Nat) : Int)
      if Date.validYmd y m d then some ⟨y, m, d⟩ else none
    else none
  | _ => none

/-- Total version of `parseDate`: the model of the
`parse_from_str(..).unwrap()` calls in the source, which are only ever
reached on strings already validated as dates (the junk value returned
for an invalid string is never used under the validity hypotheses of
the theorems below). -/
def parseDateD (s : Str) : Date := (parseDate s).getD default

/-! ## Floating point (model of the `f64` values this program meets) -/

/-- An `f64` value: NaN, an infinity, or an exact finite value.
Rounding of finite values is not modelled. -/
inductive PFloat where
  | nan
  | inf
  | neginf
  | finite (q : ℚ)
deriving DecidableEq, Repr

instance : Inhabited PFloat := ⟨.nan⟩

/-- The comparison `w > 0f64` applied to the result of parsing a
decimal literal.  A finite model value `q` is the exact value of the
literal, while Rust compares the correctly rounded binary64 of `q`.
Rounding to nearest, ties to even, sends exactly the rationals at or
below `2 ^ (-1075)` — the midpoint between `+0.0` and the smallest
positive subnormal, itself a tie that resolves to the even mantissa
`+0.0` — to a non-positive float, and every larger value to a
strictly positive float (possibly `inf` on overflow); so the rounded
value is `> 0` iff `2 ^ (-1075) < q`.  Positive infinity (overflowed
or a literal `inf`) satisfies `> 0`; NaN and negative infinity do
not. -/
def PFloat.gtZero : PFloat → Bool
  | .inf => true
  | .finite q => decide ((2 : ℚ) ^ (-1075 : ℤ) < q)
  | _ => false

/-- `f64::min` (ignores a NaN argument, as documented for Rust). -/
def PFloat.fmin : PFloat → PFloat → PFloat
  | .nan, b => b
  | a, .nan => a
  | .neginf, _ => .neginf
  | _, .neginf => .neginf
  | .inf, b => b
  | a, .inf => a
  | .finite p, .finite q => .finite (min p q)

/-- `f64::max` (ignores a NaN argument, as documented for Rust). -/
def PFloat.fmax : PFloat → PFloat → PFloat
  | .nan, b => b
  | a, .nan => a
  | .inf, _ => .inf
  | _, .inf => .inf
  | .neginf, b => b
  | a, .neginf => a
  | .finite p, .finite q => .finite (max p q)

/-- The exact value of `f64::MAX`. -/
def f64MAX : PFloat := .finite ((2 ^ 1024 - 2 ^ 971 : ℤ) : ℚ)

/-- Case-insensitive ASCII comparison of a string against a lowercase
pattern (used for the special float literals `inf`, `infinity`,
`nan`). -/
def lowerEqStr (cs t : Str) : Bool := cs.map Char.toLower = t

/-- Splits off the leading run of characters satisfying `p` (the
digit scan of the float parser). -/
def spanChars (p : Char → Bool) (cs : Str) : Str × Str :=
  (cs.takeWhile p, cs.dropWhile p)

/-- Parses the decimal part of an `f64` literal (after an optional
leading sign): mantissa digits with an optional fraction and an
optional exponent, exactly the Rust `f64::from_str` grammar.  The value
is kept as an exact rational. -/
def parseF64Core (cs : Str) : Option ℚ :=
  let p₁ := spanChars Char.isDigit cs
  let ds1 := p₁.1
  let p₂ : Option Str × Str :=
    match p₁.2 with
    | c :: r =>
      if c = '.' then (some (spanChars Char.isDigit r).1, (spanChars Char.isDigit r).2)
      else (none, c :: r)
    | [] => (none, [])
  if ds1.isEmpty && (p₂.1.getD []).isEmpty then none
  else
    let ip : ℚ := (digitsToNat ds1 : ℚ)
    let frac : ℚ :=
      match p₂.1 with
      | some f => (digitsToNat f : ℚ) / 10 ^ f.length
      | none => 0
    let base := ip + frac
    match p₂.2 with
    | [] => some base
    | c :: r3 =>
      if c = 'e' ∨ c = 'E' then
        let sp : Int × Str :=
          match r3 with
          | c2 :: r4 =>
            if c2 = '+' then (1, r4) else if c2 = '-' then (-1, r4) else (1, c2 :: r4)
          | [] => (1, [])
        let ep := spanChars Char.isDigit sp.2
        if ep.1.isEmpty || !ep.2.isEmpty then none
        else some (base * (10 : ℚ) ^ (sp.1 * (digitsToNat ep.1 : Int)))
      else none

/-- Model of `str::parse::<f64>()`: optional sign, then `inf` /
`infinity` / `nan` (ASCII case-insensitive) or a decimal literal.
Finite values are exact rationals (rounding to binary is not
modelled). -/
def parseF64 (cs : Str) : Option PFloat :=
  let sp : Bool × Str :=
    match cs with
    | c :: r => if c = '+' then (false, r) else if c = '-' then (true, r) else (false, c :: r)
    | [] => (false, [])
  if lowerEqStr sp.2 ['i', 'n', 'f'] || lowerEqStr sp.2 ['i', 'n', 'f', 'i', 'n', 'i', 't', 'y'] then
    some (if sp.1 then .neginf else .inf)
  else if lowerEqStr sp.2 ['n', 'a', 'n'] then some .nan
  else
    match parseF64Core sp.2 with
    | some q => some (.finite (if sp.1 then -q else q))
    | none => none

/-- Round to the nearest integer, ties to even (the rounding used by
Rust float formatting). -/
def roundHalfEven (q : ℚ) : Int :=
  let n := ⌊q⌋
  let f := q - (n : ℚ)
  if f < 1 / 2 then n
  else if 1 / 2 < f then n + 1
  else if Even n then n else n + 1

/-- Model of formatting with `{:.1}`: one decimal place, round to
nearest (ties to even); infinities and NaN print as Rust prints
them. -/
def fmtFixed1 : PFloat → Str
  | .nan => ['N', 'a', 'N']
  | .inf => ['i', 'n', 'f']
  | .neginf => ['-', 'i', 'n', 'f']
  | .finite q =>
    let n : Nat := (roundHalfEven (|q| * 10)).toNat
    (if q < 0 then ['-'] else []) ++ natDigits (n / 10) ++ '.' :: [Nat.digitChar (n % 10)]

/-! ## The record store and `App::modify_data` -/

/-- A store record: the date string and the weight, exactly as the Rust
store `Vec<(String, f64)>` keeps them. -/
abbrev Entry := Str × PFloat

/-- The date key of a store entry (the comparator of
`App::modify_data` parses each stored string with
`parse_from_str(.., "%d-%m-%Y").unwrap()`). -/
def entryDate (e : Entry) : Date := parseDateD e.1

/-- Result of `slice::binary_search_by`. -/
inductive SearchRes where
  | found (i : Nat)
  | notFound (i : Nat)
deriving DecidableEq, Repr

/-- The core loop of Rust `slice::binary_search_by`: maintains
`[left, right)`, probes `mid = left + (right - left) / 2`, and narrows
the interval according to the comparator.  `fuel` bounds the iteration
count and is always called with `fuel ≥ right - left`, which the loop
never exhausts. -/
def binSearchGo (f : Entry → Ordering) (xs : List Entry) : Nat → Nat → Nat → SearchRes
  | 0, left, _ => .notFound left
  | fuel + 1, left, right =>
    if left < right then
      let mid := left + (right - left) / 2
      match f (xs.getD mid default) with
      | .lt => binSearchGo f xs fuel (mid + 1) right
      | .gt => binSearchGo f xs fuel left mid
      | .eq => .found mid
    else .notFound left

/-- `data_ref.binary_search_by(|x| cmp(parse(x.0), parse(s)))` as used
by the `Append` branch of `App::modify_data`. -/
def binSearchEntries (data : List Entry) (s : Str) : SearchRes :=
  binSearchGo (fun x => Date.cmp (entryDate x) (parseDateD s)) data data.length 0 data.length

/-- The `Append` branch of `App::modify_data`: binary search on the
parsed dates; an exact hit means the date already exists (`None`,
surfaced as an error by the caller), otherwise the record is inserted
at the reported insertion point. -/
def appendData (data : List Entry) (s : Str) (num : PFloat) : Option (List Entry) :=
  match binSearchEntries data s with
  | .found _ => none
  | .notFound i => some (data.insertIdx i (s, num))

/-- Errors that can escape the event loop: an `io::Result` error, or a
Rust panic (out-of-range indexing / `unwrap`). -/
inductive RunErr where
  | ioError (msg : Str)
  | panic
deriving DecidableEq, Repr

/-- `"Cannot add element. Did you mean to edit?"` -/
def dupDateMsg : Str := "Cannot add element. Did you mean to edit?".data

/-- Message severity (`MessageType`). -/
inductive MessageType where
  | Info
  | Warning
  | Error
deriving DecidableEq, Repr

/-- `FrameType`. -/
inductive FrameType where
  | Table
  | Chart
deriving DecidableEq, Repr

/-- `ChartTimeFrame`. -/
inductive ChartTimeFrame where
  | Month
  | Year
  | WindowYear
deriving DecidableEq, Repr

/-- `WindowType`. -/
inductive WindowType where
  | ClosePopup
  | InputPopup
  | MainWindow
deriving DecidableEq, Repr

/-- `TextMode`. -/
inductive TextMode where
  | Edit
  | Append
deriving DecidableEq, Repr

/-- The application state (the fields of `struct App` that carry
design content; terminal handles and widget styles are omitted).
`text_area[0]` / `text_area[1]` are single-line buffers whose cursor
always sits at the end (the program only ever appends at the end or
deletes the last character), so they are modelled as plain strings.
`msg_time_set` / `wait_time_set` model whether the corresponding
`Option<Instant>` is `Some` (clock values themselves are not
modelled).  `today` models the ambient `Local::now().date_naive()`
used to seed the append form. -/
structure AppState where
  close : Bool
  current_window : WindowType
  data : List Entry
  selected : Option Nat
  current_frame : FrameType
  current_tf : ChartTimeFrame
  selected_date_wy : Date
  selected_date_y : Date
  selected_date_m : Date
  textDate : Str
  textWeight : Str
  text_is_valid : Bool × Bool
  selected_area : Nat
  text_mode : Option TextMode
  message : Option (Str × MessageType)
  msg_time_set : Bool
  wait_time_set : Bool
  scroll_offset : Nat
  reversed_offset : Bool
  rm_confirm : Bool
  today : Date
deriving DecidableEq, Repr

/-- `App::modify_data`.  Returns the `bool` of the Rust method together
with the updated state; `RunErr.panic` models the out-of-range
indexing panics (`data_ref[idx]`, `remove(idx)`) that Rust would hit
on a stale selection. -/
def modifyData (element : Str × Option PFloat) (st : AppState) : Except RunErr (Bool × AppState) :=
  match st.selected with
  | none => .ok (false, st)
  | some idx =>
    match element with
    | (s, some num) =>
      if st.text_mode = some TextMode.Edit then
        if h : idx < st.data.length then
          .ok (true, { st with data := st.data.set idx ((st.data[idx]).1, num) })
        else .error .panic
      else if st.text_mode = some TextMode.Append then
        match appendData st.data s num with
        | none => .ok (false, { st with message := some (dupDateMsg, MessageType.Error) })
        | some d => .ok (true, { st with data := d })
      else .ok (true, st)
    | (_, none) =>
      if idx < st.data.length then
        .ok (true, { st with data := st.data.eraseIdx idx, rm_confirm := false,
                             message := none, msg_time_set := false })
      else .error .panic

/-! ## `App::import_data` and `App::export_data` -/

/-- The comma-separated fields of one line, as `import_data` computes
them: trim the line, split on `','`, drop empty raw fields, trim the
kept fields. -/
def lineFields (x : Str) : List Str :=
  (splitChars (fun c => c = ',') (trimChars x)).filterMap
    (fun f => if f.isEmpty then none else some (trimChars f))

/-- The non-empty lines of the imported text, already turned into
field lists: `lines.split(['\r','\n'])` with empty lines dropped. -/
def importLines (cs : Str) : List (List Str) :=
  (splitChars isLineBreak cs).filterMap
    (fun x => if x.isEmpty then none else some (lineFields x))

/-- Outcome of `App::import_data` (given the file contents):
`invalidHeader` is the `Err(Error::other("Invalid Header"))` path,
`panicked` the out-of-range `x[1]` indexing on a row with fewer than
two fields, `okNoop` the `Ok(())` return with the store untouched
(no non-empty line at all), `okReplace` the `Ok(())` return that
replaces the whole store. -/
inductive ImportResult where
  | invalidHeader
  | panicked
  | okNoop
  | okReplace (data : List Entry)
deriving DecidableEq, Repr

/-- The body pass of `import_data`: keep the rows whose second field
parses as an `f64`, in file order; `none` models the panic on `x[1]`
when a row has fewer than two fields. -/
def importBody : List (List Str) → Option (List Entry)
  | [] => some []
  | x :: rest =>
    match x.get? 1 with
    | none => none
    | some f1 =>
      match parseF64 (trimChars f1) with
      | some num =>
        match importBody rest with
        | none => none
        | some t => some ((x.getD 0 [], num) :: t)
      | none => importBody rest

/-- `"Date"` -/
def dateHdr : Str := ['D', 'a', 't', 'e']

/-- `"Weight"` -/
def weightHdr : Str := ['W', 'e', 'i', 'g', 'h', 't']

/-- `App::import_data`, applied to the file contents (the file-system
wrapper around it is an external collaborator).  Note the header test
is the conjunction written in the source: the header is rejected only when the
first field differs from `Date` AND the second differs from
`Weight`. -/
def importData (cs : Str) : ImportResult :=
  match importLines cs with
  | [] => .okNoop
  | header :: rest =>
    if header.length ≠ 2 then .invalidHeader
    else if header.getD 0 [] ≠ dateHdr ∧ header.getD 1 [] ≠ weightHdr then .invalidHeader
    else
      match importBody rest with
      | none => .panicked
      | some temp => .okReplace temp

/-- `App::export_data`: the text written to the file — a `Date, Weight`
header line, then one `date, weight` line per record with the weight
formatted to one decimal place. -/
def exportData (data : List Entry) : Str :=
  (dateHdr ++ ',' :: ' ' :: weightHdr) ++ '\n' ::
    data.flatMap (fun e => e.1 ++ ',' :: ' ' :: fmtFixed1 e.2 ++ ['\n'])

/-! ## The windowing engine (`App::render_chart`) -/

/-- `OFFSET_MIN` -/
def OFFSET_MIN : ℚ := 2

/-- `OFFSET_MAX` -/
def OFFSET_MAX : ℚ := 2

/-- The `[date_left, date_right]` window of the chart for the current
time frame, from the three retained anchors.  This is the literal
computation of `App::render_chart`: in particular the `Month` branch
computes `date_right` as `from_ymd(y, (m % 12) + 1, 1)` minus one day
without adjusting the year. -/
def windowBounds (tf : ChartTimeFrame) (wy y m : Date) : Date × Date :=
  match tf with
  | .WindowYear => (wy.shiftMonths (-12), wy)
  | .Year => (⟨y.year, 1, 1⟩, ⟨y.year, 12, 31⟩)
  | .Month => (⟨m.year, m.month, 1⟩, Date.predDay ⟨m.year, (m.month % 12) + 1, 1⟩)

/-- The clipped plot points: for each record inside
`[date_left, date_left + delta]` (in days), the pair
`(days_since(date_left), weight)`. -/
def dataPoints (data : List Entry) (dl : Date) (delta : Int) : List (Int × PFloat) :=
  data.filterMap (fun x =>
    let diff := (entryDate x).toDays - dl.toDays
    if 0 ≤ diff ∧ diff ≤ delta then some (diff, x.2) else none)

/-- `min_weight`: fold of `f64::min` over the plot-point weights
starting from `f64::MAX`, or the placeholder `0.0 + OFFSET_MIN` when
the window holds no points. -/
def minWeight (pts : List (Int × PFloat)) : PFloat :=
  if !pts.isEmpty then pts.foldl (fun acc x => PFloat.fmin x.2 acc) f64MAX
  else .finite (0 + OFFSET_MIN)

/-- `max_weight`: fold of `f64::max` over the plot-point weights
starting from `0f64`, or the placeholder `100.0 - OFFSET_MAX` when the
window holds no points. -/
def maxWeight (pts : List (Int × PFloat)) : PFloat :=
  if !pts.isEmpty then pts.foldl (fun acc x => PFloat.fmax x.2 acc) (.finite 0)
  else .finite (100 - OFFSET_MAX)

/-- Subtract a finite constant from an `f64` (exact on finite values;
infinities absorb, NaN propagates). -/
def PFloat.subC (a : PFloat) (c : ℚ) : PFloat :=
  match a with
  | .finite q => .finite (q - c)
  | x => x

/-- Add a finite constant to an `f64` (exact on finite values;
infinities absorb, NaN propagates). -/
def PFloat.addC (a : PFloat) (c : ℚ) : PFloat :=
  match a with
  | .finite q => .finite (q + c)
  | x => x

/-- The y-axis bounds handed to the `Chart` widget:
`[min_weight - OFFSET_MIN, max_weight + OFFSET_MAX]`.  The three
`render_chart` branches repeat this computation verbatim, so it is
embedded once, parameterised by the time frame. -/
def chartYBounds (tf : ChartTimeFrame) (wy y m : Date) (data : List Entry) : PFloat × PFloat :=
  let b := windowBounds tf wy y m
  let delta := b.2.toDays - b.1.toDays
  let pts := dataPoints data b.1 delta
  (PFloat.subC (minWeight pts) OFFSET_MIN, PFloat.addC (maxWeight pts) OFFSET_MAX)

/-! ## The interaction state machine (`App::handle_events`) -/

/-- `usize::MAX`, the sentinel `TableState::select_last` stores (the
table render pass clamps it to the last row; rendering is not
modelled). -/
def USIZE_MAX : Nat := 18446744073709551615

/-- `TableState::select_previous` (ratatui): saturating decrement,
`usize::MAX` when nothing was selected. -/
def selectPrevious (s : Option Nat) : Option Nat :=
  some (match s with | none => USIZE_MAX | some i => i - 1)

/-- `TableState::select_next` (ratatui): saturating increment from 0. -/
def selectNext (s : Option Nat) : Option Nat :=
  some (match s with | none => 0 | some i => min (i + 1) USIZE_MAX)

/-- An apostrophe character (`0x27`). -/
def sqChar : Char := Char.ofNat 39

/-- The deletion-confirmation warning banner text. -/
def confirmMsg : Str :=
  "Press ".data ++ sqChar :: 'd' :: sqChar :: " again to confirm deletion".data

/-- `"No row is selected."` -/
def noRowMsg : Str := "No row is selected.".data

/-- `"Invalid weight format!"` -/
def invalidWeightMsg : Str := "Invalid weight format!".data

/-- `"Invalid date format!"` -/
def invalidDateMsg : Str := "Invalid date format!".data

/-- `"Invalid weight & date format!"` -/
def invalidBothMsg : Str := "Invalid weight & date format!".data

/-- The live weight validation of `App::activate_text`: the guard
`Ok(w) if w > 0f64` on `text.parse::<f64>()`. -/
def validateWeightLive (cs : Str) : Bool :=
  match parseF64 cs with
  | some w => w.gtZero
  | none => false

/-- The submit-time weight validation of `App::handle_events`
(`Enter` in the input popup): `if let Ok(w) = weight { w > 0f64 } else
{ false }`. -/
def validateWeightSubmit (cs : Str) : Bool :=
  match parseF64 cs with
  | some w => w.gtZero
  | none => false

/-- `App::init_text_area`: seeds the two text fields for the form
popup and (re)sets the validity flags, including the quirk of the source
writing index 0 of `text_is_valid` in the weight block.  Panics (via
`data_ref[idx]`) when editing with an out-of-range selection. -/
def initTextArea (st : AppState) : Except RunErr AppState :=
  match st.text_mode, st.selected with
  | some TextMode.Edit, some idx =>
    if h : idx < st.data.length then
      .ok { st with textDate := (st.data[idx]).1,
                    textWeight := fmtFixed1 (st.data[idx]).2,
                    selected_area := 1,
                    text_is_valid := (true, st.text_is_valid.2) }
    else .error .panic
  | some TextMode.Edit, none =>
    .ok { st with textDate := [], textWeight := [], selected_area := 1,
                  text_is_valid := (false, st.text_is_valid.2) }
  | some TextMode.Append, _ =>
    .ok { st with textDate := fmtDate st.today, textWeight := [], selected_area := 1,
                  text_is_valid := (false, st.text_is_valid.2) }
  | none, _ =>
    .ok { st with textDate := [], textWeight := [], selected_area := 1,
                  text_is_valid := (false, st.text_is_valid.2) }

/-- `App::activate_text` restricted to its state effect (the validity
flags; widget styling is rendering).  Note the source writes
`text_is_valid[0]` in the valid-weight branch and `text_is_valid[1]`
in the invalid-weight branch. -/
def activateText (st : AppState) : AppState :=
  if st.selected_area = 0 then
    { st with text_is_valid := ((parseDate st.textDate).isSome, st.text_is_valid.2) }
  else if st.selected_area = 1 then
    if validateWeightLive st.textWeight then
      { st with text_is_valid := (true, st.text_is_valid.2) }
    else
      { st with text_is_valid := (st.text_is_valid.1, false) }
  else st

/-- Inserts a character at the end of the focused text field (the
cursor always sits at the end; see `AppState`). -/
def insertCharFocused (st : AppState) (c : Char) : AppState :=
  if st.selected_area = 0 then { st with textDate := st.textDate ++ [c] }
  else { st with textWeight := st.textWeight ++ [c] }

/-- `Backspace` in the form: deletes the character before the cursor
(the last character). -/
def deleteCharFocused (st : AppState) : AppState :=
  if st.selected_area = 0 then { st with textDate := st.textDate.dropLast }
  else { st with textWeight := st.textWeight.dropLast }

/-- `App::toggle_frame`. -/
def toggleFrame : FrameType → FrameType
  | .Chart => .Table
  | .Table => .Chart

/-- `App::cycle_next_tf`. -/
def cycleNextTf : ChartTimeFrame → ChartTimeFrame
  | .WindowYear => .Month
  | .Year => .WindowYear
  | .Month => .Year

/-- `App::cycle_prev_tf`. -/
def cyclePrevTf : ChartTimeFrame → ChartTimeFrame
  | .Month => .WindowYear
  | .WindowYear => .Year
  | .Year => .Month

/-- A key event as `App::handle_events` dispatches it (release events
are already filtered out; `other` covers the key codes the source
ignores in its catch-all arm). -/
inductive KeyIn where
  | ctrlC
  | esc
  | enter
  | tab
  | backspace
  | ch (c : Char)
  | other
deriving DecidableEq, Repr

/-- `App::handle_events`, one key event.  Errors model the
`io::Result` error return (`d` with no selection) and panics on
out-of-range indexing. -/
def handleKey (k : KeyIn) (st : AppState) : Except RunErr AppState :=
  match k with
  | .ctrlC => .ok { st with close := true }
  | .esc =>
    match st.current_window with
    | .MainWindow => .ok { st with current_window := .ClosePopup, scroll_offset := 0 }
    | _ => .ok { st with current_window := .MainWindow, scroll_offset := 0 }
  | .enter =>
    match st.current_window with
    | .MainWindow => .ok st
    | .ClosePopup => .ok { st with close := true }
    | .InputPopup =>
      let date := st.textDate
      let weight := parseF64 st.textWeight
      let dateIsValid := (parseDate date).isSome
      let weightIsValid := match weight with | some w => w.gtZero | none => false
      if dateIsValid && weightIsValid then
        match modifyData (date, some (weight.getD default)) st with
        | .error e => .error e
        | .ok (true, st') =>
          .ok { st' with current_window := .MainWindow, scroll_offset := 0,
                         selected := some USIZE_MAX, text_mode := none }
        | .ok (false, st') => .ok st'
      else if dateIsValid then .ok { st with message := some (invalidWeightMsg, .Error) }
      else if weightIsValid then .ok { st with message := some (invalidDateMsg, .Error) }
      else .ok { st with message := some (invalidBothMsg, .Error) }
  | .tab =>
    match st.current_window with
    | .MainWindow => .ok { st with current_frame := toggleFrame st.current_frame }
    | .InputPopup =>
      match st.text_mode with
      | some TextMode.Append => .ok { st with selected_area := (st.selected_area + 1) % 2 }
      | _ => .ok st
    | _ => .ok st
  | .backspace =>
    match st.current_window with
    | .InputPopup => .ok (deleteCharFocused st)
    | _ => .ok st
  | .other => .ok st
  | .ch c =>
    match st.current_window with
    | .MainWindow =>
      match st.current_frame with
      | .Table =>
        if c = 'q' then .ok { st with current_window := .ClosePopup, scroll_offset := 0 }
        else if c = 'k' then .ok { st with selected := selectPrevious st.selected }
        else if c = 'j' then .ok { st with selected := selectNext st.selected }
        else if c = 'a' then
          initTextArea { st with current_window := .InputPopup, scroll_offset := 0,
                                 text_mode := some TextMode.Append }
        else if c = 'e' then
          initTextArea { st with current_window := .InputPopup, scroll_offset := 0,
                                 text_mode := some TextMode.Edit }
        else if c = 'd' then
          if st.rm_confirm then
            match st.selected with
            | none => .error (.ioError noRowMsg)
            | some idx =>
              if h : idx < st.data.length then
                (modifyData ((st.data[idx]).1, none) st).map (fun r => r.2)
              else .error .panic
          else .ok { st with rm_confirm := true, message := some (confirmMsg, .Warning) }
        else .ok st
      | .Chart =>
        if c = 'q' then .ok { st with current_window := .ClosePopup, scroll_offset := 0 }
        else if c = 'k' then .ok { st with current_tf := cyclePrevTf st.current_tf }
        else if c = 'j' then .ok { st with current_tf := cycleNextTf st.current_tf }
        else if c = 'h' then
          match st.current_tf with
          | .Month => .ok { st with selected_date_m := st.selected_date_m.shiftMonths (-1) }
          | .Year => .ok { st with selected_date_y := st.selected_date_y.shiftMonths (-12) }
          | .WindowYear => .ok { st with selected_date_wy := st.selected_date_wy.predDay }
        else if c = 'l' then
          match st.current_tf with
          | .Month => .ok { st with selected_date_m := st.selected_date_m.shiftMonths 1 }
          | .Year => .ok { st with selected_date_y := st.selected_date_y.shiftMonths 12 }
          | .WindowYear => .ok { st with selected_date_wy := st.selected_date_wy.succDay }
        else .ok st
    | .ClosePopup =>
      if c = 'y' then .ok { st with close := true }
      else if c = 'n' then .ok { st with current_window := .MainWindow, scroll_offset := 0 }
      else .ok st
    | .InputPopup => .ok (activateText (insertCharFocused st c))

/-- The event-processing skeleton of `App::run`: handle key events
until the close flag is set; an `Err` from `handle_events` propagates
out through `?` and terminates the loop.  (Rendering and the
poll-timeout are time-driven side effects outside the model.) -/
def runEvents : List KeyIn → AppState → Except RunErr AppState
  | [], st => .ok st
  | k :: ks, st =>
    if st.close then .ok st
    else
      match handleKey k st with
      | .error e => .error e
      | .ok st' => runEvents ks st'

/-- Sequence of `append` store operations starting from the empty
store, each applied through `appendData`; a failed append (duplicate
date) leaves the store unchanged, as `modify_data` does. -/
def appendFold (ops : List (Str × PFloat)) : List Entry :=
  ops.foldl (fun d op => (appendData d op.1 op.2).getD d) []

/-- The store invariant: parsed dates strictly ascending (hence also
pairwise distinct). -/
def storeSorted (data : List Entry) : Prop :=
  data.Pairwise (fun a b => Date.ltb (entryDate a) (entryDate b) = true)

/-- A baseline application state mirroring `App::default()` (empty
store, main window, table frame, all three anchors set to a fixed
ambient date). -/
def baseState : AppState :=
  { close := false
    current_window := .MainWindow
    data := []
    selected := none
    current_frame := .Table
    current_tf := .Month
    selected_date_wy := ⟨2025, 5, 19⟩
    selected_date_y := ⟨2025, 5, 19⟩
    selected_date_m := ⟨2025, 5, 19⟩
    textDate := []
    textWeight := []
    text_is_valid := (false, false)
    selected_area := 1
    text_mode := none
    message := none
    msg_time_set := false
    wait_time_set := false
    scroll_offset := 0
    reversed_offset := false
    rm_confirm := false
    today := ⟨2025, 5, 19⟩ }

/-- The append sequence used to witness C1. -/
def opsC1 : List (Str × PFloat) :=
  [("02-01-2025".data, .finite 80), ("01-01-2025".data, .finite 81),
   ("15-03-2025".data, .finite 79)]

/-- The state used to witness C2: a two-record sorted store in append
mode. -/
def stateC2 : AppState :=
  { baseState with
    text_mode := some TextMode.Append
    selected := some 0
    data := [("01-01-2025".data, .finite 80), ("05-01-2025".data, .finite 82)] }

/-- The state used against C9: three sorted records with the first row
selected, table frame, confirmation not armed. -/
def stateC9 : AppState :=
  { baseState with
    data := [("01-01-2025".data, .finite 80), ("02-01-2025".data, .finite 81),
             ("03-01-2025".data, .finite 82)]
    selected := some 0 }

/-- The state used to witness C10: armed confirmation, no selection
(the `App::default()` state with the flag set). -/
def stateC10 : AppState := { baseState with rm_confirm := true }

/-- The store used to witness C3: two dated records with one-decimal
weights. -/
def storeC3 : List Entry :=
  [("23-04-2025".data, .finite (901 / 10)), ("24-04-2025".data, .finite 80)]

/-- Decidable equality of run outcomes (needed to evaluate the
state-machine theorems on concrete inputs). -/
instance exceptDecEq {e a : Type} [DecidableEq e] [DecidableEq a] :
    DecidableEq (Except e a) := fun x y =>
  match x, y with
  | .ok u, .ok v =>
    if h : u = v then isTrue (by rw [h])
    else isFalse (by intro hc; injection hc; exact h (by assumption))
  | .error u, .error v =>
    if h : u = v then isTrue (by rw [h])
    else isFalse (by intro hc; injection hc; exact h (by assumption))
  | .ok _, .error _ => isFalse (by intro hc; injection hc)
  | .error _, .ok _ => isFalse (by intro hc; injection hc)

/-! ## Order lemmas for dates -/

theorem Date.ltb_iff {a b : Date} :
    a.ltb b = true ↔
      (a.year < b.year ∨ (a.year = b.year ∧
        (a.month < b.month ∨ (a.month = b.month ∧ a.day < b.day)))) := by
  simp [Date.ltb]

theorem Date.ltb_irrefl (a : Date) : a.ltb a = false := by
  cases a; simp [Date.ltb]

theorem Date.ltb_trans {a b c : Date} (h₁ : a.ltb b = true) (h₂ : b.ltb c = true) :
    a.ltb c = true := by
  cases a; cases b; cases c
  rw [Date.ltb_iff] at h₁ h₂ ⊢
  dsimp at h₁ h₂ ⊢
  omega

theorem Date.ltb_asymm {a b : Date} (h : a.ltb b = true) : b.ltb a = false := by
  cases a; cases b
  rw [Date.ltb_iff] at h
  rw [← Bool.not_eq_true, Date.ltb_iff]
  dsimp at h ⊢
  omega

theorem Date.ltb_trichotomy (a b : Date) :
    a.ltb b = true ∨ a = b ∨ b.ltb a = true := by
  cases a; cases b
  rw [Date.ltb_iff, Date.ltb_iff, Date.mk.injEq]
  dsimp
  omega

theorem Date.ne_of_ltb {a b : Date} (h : a.ltb b = true) : a ≠ b := by
  intro he; subst he; rw [Date.ltb_irrefl] at h; exact Bool.false_ne_true h

theorem Date.cmp_eq_lt {a b : Date} : a.cmp b = .lt ↔ a.ltb b = true := by
  unfold Date.cmp
  constructor
  · intro h
    by_contra hne
    simp [Bool.not_eq_true] at hne
    rw [hne] at h
    split at h <;> simp_all
  · intro h; simp [h]

theorem Date.cmp_eq_eq {a b : Date} : a.cmp b = .eq ↔ a = b := by
  unfold Date.cmp
  constructor
  · intro h
    split at h
    · simp_all
    · split at h <;> simp_all
  · intro h; subst h; simp [Date.ltb_irrefl]

theorem Date.cmp_eq_gt {a b : Date} : a.cmp b = .gt ↔ b.ltb a = true := by
  unfold Date.cmp
  constructor
  · intro h
    have h1 : a.ltb b = false := by by_contra hc; simp [Bool.not_eq_false] at hc; simp [hc] at h
    have h2 : a ≠ b := by intro he; simp [h1, he] at h
    rcases Date.ltb_trichotomy a b with ht | ht | ht
    · rw [ht] at h1; exact absurd h1 (by simp)
    · exact absurd ht h2
    · exact ht
  · intro h
    have h1 : a.ltb b = false := Date.ltb_asymm h
    have h2 : a ≠ b := Ne.symm (Date.ne_of_ltb h)
    simp [h1, h2]

/-! ## Correctness of the binary-search loop -/

/-- Loop invariant of `binSearchGo` on a strictly sorted slice: a hit
is a real occurrence of the target date, and a miss returns the unique
insertion point (everything before it strictly smaller, everything
from it on strictly greater). -/
theorem binSearchGo_spec (t : Date) (xs : List Entry)
    (hsort : ∀ i j (_ : i < xs.length) (_ : j < xs.length), i < j →
      Date.ltb (entryDate xs[i]) (entryDate xs[j]) = true) :
    ∀ fuel left right, left ≤ right → right ≤ xs.length → right - left ≤ fuel →
    (∀ j (_ : j < xs.length), j < left → Date.ltb (entryDate xs[j]) t = true) →
    (∀ j (_ : j < xs.length), right ≤ j → Date.ltb t (entryDate xs[j]) = true) →
    (match binSearchGo (fun x => Date.cmp (entryDate x) t) xs fuel left right with
     | .found i => ∃ _ : i < xs.length, entryDate xs[i] = t
     | .notFound i => i ≤ xs.length ∧
         (∀ j (_ : j < xs.length), j < i → Date.ltb (entryDate xs[j]) t = true) ∧
         (∀ j (_ : j < xs.length), i ≤ j → Date.ltb t (entryDate xs[j]) = true)) := by
  intro fuel
  induction fuel with
  | zero =>
    intro l r hlr hr hfuel hl hrr
    have hlr' : l = r := by omega
    subst hlr'
    simp only [binSearchGo]
    exact ⟨le_trans hlr hr, fun j hj hji => hl j hj hji, fun j hj hij => hrr j hj hij⟩
  | succ fuel ih =>
    intro l r hlr hr hfuel hl hrr
    simp only [binSearchGo]
    by_cases hlt : l < r
    · simp only [if_pos hlt]
      have hmidlt : l + (r - l) / 2 < r := by omega
      have hmidge : l ≤ l + (r - l) / 2 := by omega
      have hmidlen : l + (r - l) / 2 < xs.length := lt_of_lt_of_le hmidlt hr
      rw [List.getD_eq_getElem xs default hmidlen]
      cases hcmp : Date.cmp (entryDate xs[l + (r - l) / 2]) t with
      | lt =>
        have hmidval := Date.cmp_eq_lt.mp hcmp
        refine ih (l + (r - l) / 2 + 1) r (by omega) hr (by omega) ?_ hrr
        intro j hj hji
        rcases Nat.lt_or_ge j (l + (r - l) / 2) with hjm | hjm
        · exact Date.ltb_trans (hsort j (l + (r - l) / 2) hj hmidlen hjm) hmidval
        · have : j = l + (r - l) / 2 := by omega
          subst this
          exact hmidval
      | gt =>
        have hmidval := Date.cmp_eq_gt.mp hcmp
        refine ih l (l + (r - l) / 2) hmidge (le_of_lt hmidlen) (by omega) hl ?_
        intro j hj hij
        rcases Nat.lt_or_ge (l + (r - l) / 2) j with hjm | hjm
        · exact Date.ltb_trans hmidval (hsort (l + (r - l) / 2) j hmidlen hj hjm)
        · have : j = l + (r - l) / 2 := by omega
          subst this
          exact hmidval
      | eq =>
        exact ⟨hmidlen, Date.cmp_eq_eq.mp hcmp⟩
    · simp only [if_neg hlt]
      have hlr' : l = r := by omega
      subst hlr'
      exact ⟨le_trans hlr hr, fun j hj hji => hl j hj hji, fun j hj hij => hrr j hj hij⟩

/-- `storeSorted` in indexed form. -/
theorem storeSorted_iff_getElem {data : List Entry} :
    storeSorted data ↔
      ∀ i j (_ : i < data.length) (_ : j < data.length), i < j →
        Date.ltb (entryDate data[i]) (entryDate data[j]) = true := by
  unfold storeSorted
  rw [List.pairwise_iff_getElem]

/-- Top-level specification of the `binary_search_by` call of
`App::modify_data` on a sorted store. -/
theorem binSearchEntries_spec (data : List Entry) (s : Str) (hsort : storeSorted data) :
    (match binSearchEntries data s with
     | .found i => ∃ _ : i < data.length, entryDate data[i] = parseDateD s
     | .notFound i => i ≤ data.length ∧
         (∀ j (_ : j < data.length), j < i →
           Date.ltb (entryDate data[j]) (parseDateD s) = true) ∧
         (∀ j (_ : j < data.length), i ≤ j →
           Date.ltb (parseDateD s) (entryDate data[j]) = true)) := by
  unfold binSearchEntries
  exact binSearchGo_spec (parseDateD s) data (storeSorted_iff_getElem.mp hsort)
    data.length 0 data.length (Nat.zero_le _) le_rfl (by omega)
    (fun j _ hj => absurd hj (Nat.not_lt_zero j))
    (fun j hj hij => absurd hij (Nat.not_le_of_lt hj))

/-- On a sorted store, a present date is always found by the binary
search (completeness). -/
theorem binSearchEntries_found_of_mem (data : List Entry) (s : Str)
    (hsort : storeSorted data) (hmem : ∃ e ∈ data, entryDate e = parseDateD s) :
    ∃ i, binSearchEntries data s = .found i := by
  obtain ⟨e, he, hed⟩ := hmem
  obtain ⟨j, hj, hje⟩ := List.mem_iff_getElem.mp he
  have hspec := binSearchEntries_spec data s hsort
  cases hres : binSearchEntries data s with
  | found i => exact ⟨i, rfl⟩
  | notFound i =>
    rw [hres] at hspec
    obtain ⟨_, hlo, hhi⟩ := hspec
    rcases Nat.lt_or_ge j i with hji | hji
    · have := hlo j hj hji
      rw [hje, hed] at this
      rw [Date.ltb_irrefl] at this
      exact absurd this (by simp)
    · have := hhi j hj hji
      rw [hje, hed] at this
      rw [Date.ltb_irrefl] at this
      exact absurd this (by simp)

/-! ## Sortedness of insertion at the binary-search position -/

theorem insertIdx_eq_take_cons_drop (x : Entry) :
    ∀ (l : List Entry) (i : Nat), i ≤ l.length →
      l.insertIdx i x = l.take i ++ x :: l.drop i := by
  intro l
  induction l with
  | nil =>
    intro i hi
    have : i = 0 := by simpa using hi
    subst this
    simp [List.insertIdx]
  | cons a t iht =>
    intro i hi
    cases i with
    | zero => simp [List.insertIdx]
    | succ n =>
      rw [List.insertIdx_succ_cons, iht n (by simpa using hi)]
      simp

theorem storeSorted_insertIdx {l : List Entry} (hs : storeSorted l) (i : Nat) (x : Entry)
    (hi : i ≤ l.length)
    (hlo : ∀ j (_ : j < l.length), j < i → Date.ltb (entryDate l[j]) (entryDate x) = true)
    (hhi : ∀ j (_ : j < l.length), i ≤ j → Date.ltb (entryDate x) (entryDate l[j]) = true) :
    storeSorted (l.insertIdx i x) := by
  rw [insertIdx_eq_take_cons_drop x l i hi]
  unfold storeSorted at hs ⊢
  rw [List.pairwise_append]
  have hsget := (@storeSorted_iff_getElem l).mp hs
  refine ⟨List.Pairwise.sublist (List.take_sublist i l) hs, ?_, ?_⟩
  · rw [List.pairwise_cons]
    constructor
    · intro b hb
      obtain ⟨k, hk, hkb⟩ := List.mem_iff_getElem.mp hb
      have hklen : i + k < l.length := by
        have := hk
        rw [List.length_drop] at this
        omega
      have : (l.drop i)[k] = l[i + k] := List.getElem_drop l
      rw [this] at hkb
      rw [← hkb]
      exact hhi (i + k) hklen (by omega)
    · exact List.Pairwise.sublist (List.drop_sublist i l) hs
  · intro a ha b hb
    obtain ⟨j, hj, hja⟩ := List.mem_iff_getElem.mp ha
    have hjlen : j < l.length := by
      have := hj
      rw [List.length_take] at this
      omega
    have hji : j < i := by
      have := hj
      rw [List.length_take] at this
      omega
    have hget : (l.take i)[j] = l[j] := List.getElem_take l
    rw [hget] at hja
    rcases List.mem_cons.mp hb with hbx | hbd
    · subst hbx
      rw [← hja]
      exact hlo j hjlen hji
    · obtain ⟨k, hk, hkb⟩ := List.mem_iff_getElem.mp hbd
      have hklen : i + k < l.length := by
        have := hk
        rw [List.length_drop] at this
        omega
      have : (l.drop i)[k] = l[i + k] := List.getElem_drop l
      rw [this] at hkb
      rw [← hja, ← hkb]
      exact hsget j (i + k) hjlen hklen (by omega)

/-- One `append` step (success or duplicate-failure) preserves the
sorted-unique store invariant. -/
theorem appendData_step_sorted (d : List Entry) (s : Str) (w : PFloat)
    (hs : storeSorted d) : storeSorted ((appendData d s w).getD d) := by
  unfold appendData
  have hspec := binSearchEntries_spec d s hs
  cases hres : binSearchEntries d s with
  | found i => simpa using hs
  | notFound i =>
    rw [hres] at hspec
    obtain ⟨hilen, hlo, hhi⟩ := hspec
    simp only [Option.getD_some]
    exact storeSorted_insertIdx hs i (s, w) hilen hlo hhi

theorem appendFold_sorted (ops : List (Str × PFloat)) :
    ∀ d, storeSorted d →
      storeSorted (ops.foldl (fun d op => (appendData d op.1 op.2).getD d) d) := by
  induction ops with
  | nil => intro d hd; simpa using hd
  | cons op rest ih =>
    intro d hd
    rw [List.foldl_cons]
    exact ih _ (appendData_step_sorted d op.1 op.2 hd)


/-! ## C1: append sequences keep the store strictly sorted by date -/

/-- C1: for every sequence of append operations with pairwise distinct
valid `DD-MM-YYYY` dates applied from the empty store, after each
append (i.e. after every prefix of the sequence) the store is strictly
ascending in parsed date — dates unique and the collection sorted. -/
theorem C1_append_sequence_keeps_store_sorted (ops : List (Str × PFloat))
    (_hvalid : ∀ op ∈ ops, (parseDate op.1).isSome = true)
    (_hdistinct : ops.Pairwise (fun a b => parseDateD a.1 ≠ parseDateD b.1)) :
    ∀ n, storeSorted (appendFold (ops.take n)) := by
  intro n
  unfold appendFold
  exact appendFold_sorted (ops.take n) [] List.Pairwise.nil


/-- Witness for C1 at a concrete three-append sequence. -/
theorem C1_append_sequence_keeps_store_sorted_witness :
    (∀ op ∈ opsC1, (parseDate op.1).isSome = true) ∧
      opsC1.Pairwise (fun a b => parseDateD a.1 ≠ parseDateD b.1) ∧
      storeSorted (appendFold (opsC1.take 3)) :=
  ⟨by decide, by decide,
    C1_append_sequence_keeps_store_sorted opsC1 (by decide) (by decide) 3⟩

/-! ## C2: appending a duplicate date fails and leaves the store unchanged -/

/-- C2: on a sorted store, `modify_data` in `Append` mode with a date
already present returns `false`, posts the duplicate-date error
banner, and changes nothing else — in particular the store contents
are exactly unchanged.  (The selection hypothesis reflects the guard
at the top of `modify_data`, which the append path must pass to reach
the binary search; the application selects a row whenever the form
can be submitted.) -/
theorem C2_duplicate_append_rejected (st : AppState) (i : Nat) (s : Str) (w : PFloat)
    (hmode : st.text_mode = some TextMode.Append)
    (hsel : st.selected = some i)
    (hsort : storeSorted st.data)
    (hmem : ∃ e ∈ st.data, entryDate e = parseDateD s) :
    modifyData (s, some w) st =
      .ok (false, { st with message := some (dupDateMsg, MessageType.Error) }) := by
  obtain ⟨j, hfound⟩ := binSearchEntries_found_of_mem st.data s hsort hmem
  unfold modifyData
  rw [hsel]
  simp only [hmode, Option.some.injEq, reduceCtorEq, if_false, if_true]
  unfold appendData
  rw [hfound]


/-- Witness for C2: re-appending the date `05-01-2025` fails with the
error banner and leaves the two stored records untouched. -/
theorem C2_duplicate_append_rejected_witness :
    stateC2.text_mode = some TextMode.Append ∧
      stateC2.selected = some 0 ∧
      storeSorted stateC2.data ∧
      (∃ e ∈ stateC2.data, entryDate e = parseDateD "05-01-2025".data) ∧
      modifyData ("05-01-2025".data, some (.finite 90)) stateC2 =
        .ok (false, { stateC2 with message := some (dupDateMsg, MessageType.Error) }) := by
  refine ⟨rfl, rfl, ?_, ?_, ?_⟩
  · unfold storeSorted stateC2 baseState
    decide
  · decide
  · exact C2_duplicate_append_rejected stateC2 0 "05-01-2025".data (.finite 90)
      rfl rfl (by unfold storeSorted stateC2 baseState; decide) (by decide)

/-! ## C4: the Month window for a December anchor -/

/-- C4 (code bug): for the December anchor `15-12-2024`, the `Month`
branch of `render_chart` computes `date_right` as
`from_ymd(y, (m % 12) + 1, 1) - 1 day` *without* incrementing the
year, yielding `31-12-2023` — the last day of December of the
*previous* year — so `delta = date_right - date_left = -336 < 0`,
contradicting the claim that `date_right` is the last day of the
anchor month and that `delta` equals the month length minus one
(30) and is never negative. -/
theorem C4_month_window_december_negative_delta :
    windowBounds .Month default default ⟨2024, 12, 15⟩ =
      (⟨2024, 12, 1⟩, ⟨2023, 12, 31⟩) ∧
      (windowBounds .Month default default ⟨2024, 12, 15⟩).2.toDays -
        (windowBounds .Month default default ⟨2024, 12, 15⟩).1.toDays = -336 := by
  constructor
  · decide
  · decide

/-! ## C5: axis bounds for an empty window -/

/-- C5 counterexample: with an empty store (so zero points in any
window) and a January 2025 `Month` anchor, the y-axis bounds handed to
the chart are `(0, 100)` — `(PAD - PAD, (100 - PAD) + PAD)` — not the
`(2, 98)` the claim states. -/
theorem C5_empty_window_bounds_counterexample :
    chartYBounds .Month ⟨2025, 1, 15⟩ ⟨2025, 1, 15⟩ ⟨2025, 1, 15⟩ [] =
      (.finite 0, .finite 100) ∧
      chartYBounds .Month ⟨2025, 1, 15⟩ ⟨2025, 1, 15⟩ ⟨2025, 1, 15⟩ [] ≠
        (.finite 2, .finite 98) := by
  have h1 : chartYBounds .Month ⟨2025, 1, 15⟩ ⟨2025, 1, 15⟩ ⟨2025, 1, 15⟩ [] =
      (.finite 0, .finite 100) := by
    unfold chartYBounds
    norm_num [dataPoints, minWeight, maxWeight, PFloat.subC, PFloat.addC, OFFSET_MIN, OFFSET_MAX]
  refine ⟨h1, ?_⟩
  rw [h1]
  intro hc
  rw [Prod.mk.injEq] at hc
  have := hc.1
  simp only [PFloat.finite.injEq] at this
  norm_num at this

/-- C5 as amended: for every view mode and anchors with zero records
inside the visible window, the placeholder weights are
`min_weight = PAD = 2` and `max_weight = 100 - PAD = 98`, and the
bounds handed to the chart are therefore
`y_min = min_weight - PAD = 0` and `y_max = max_weight + PAD = 100`. -/
theorem C5_empty_window_bounds (tf : ChartTimeFrame) (wy y m : Date) (data : List Entry)
    (hempty : dataPoints data (windowBounds tf wy y m).1
        ((windowBounds tf wy y m).2.toDays - (windowBounds tf wy y m).1.toDays) = []) :
    minWeight (dataPoints data (windowBounds tf wy y m).1
        ((windowBounds tf wy y m).2.toDays - (windowBounds tf wy y m).1.toDays)) =
      .finite OFFSET_MIN ∧
    maxWeight (dataPoints data (windowBounds tf wy y m).1
        ((windowBounds tf wy y m).2.toDays - (windowBounds tf wy y m).1.toDays)) =
      .finite (100 - OFFSET_MAX) ∧
    chartYBounds tf wy y m data = (.finite 0, .finite 100) := by
  refine ⟨by rw [hempty]; simp [minWeight, OFFSET_MIN],
    by rw [hempty]; simp [maxWeight, OFFSET_MAX], ?_⟩
  unfold chartYBounds
  simp only [minWeight, maxWeight, hempty, List.isEmpty_nil, Bool.not_true, Bool.false_eq_true,
    if_false, PFloat.subC, PFloat.addC]
  norm_num [OFFSET_MIN, OFFSET_MAX]

/-- Witness for the amended C5 at a concrete empty store and `Year`
anchors. -/
theorem C5_empty_window_bounds_witness :
    dataPoints [] (windowBounds .Year ⟨2025, 1, 15⟩ ⟨2025, 1, 15⟩ ⟨2025, 1, 15⟩).1
        ((windowBounds .Year ⟨2025, 1, 15⟩ ⟨2025, 1, 15⟩ ⟨2025, 1, 15⟩).2.toDays -
          (windowBounds .Year ⟨2025, 1, 15⟩ ⟨2025, 1, 15⟩ ⟨2025, 1, 15⟩).1.toDays) = [] ∧
      chartYBounds .Year ⟨2025, 1, 15⟩ ⟨2025, 1, 15⟩ ⟨2025, 1, 15⟩ [] =
        (.finite 0, .finite 100) :=
  ⟨rfl, (C5_empty_window_bounds .Year ⟨2025, 1, 15⟩ ⟨2025, 1, 15⟩ ⟨2025, 1, 15⟩ [] rfl).2.2⟩

/-! ## C6: header validation on import -/

/-- C6 counterexample: the header `Date, Foo` contains only one of the
two expected column names, so the claim requires `InvalidHeader`; the
code accepts it (the source tests `header[0] != "Date" &&
header[1] != "Weight"`, a conjunction) and the import succeeds,
replacing the store. -/
theorem C6_single_expected_name_header_accepted :
    (importLines ("Date, Foo\n01-01-2025, 80.0".data)).head? =
        some [dateHdr, ['F', 'o', 'o']] ∧
      ['F', 'o', 'o'] ≠ weightHdr ∧
      importData ("Date, Foo\n01-01-2025, 80.0".data) ≠ .invalidHeader ∧
      importData ("Date, Foo\n01-01-2025, 80.0".data) ≠ .okNoop ∧
      importData ("Date, Foo\n01-01-2025, 80.0".data) ≠ .panicked :=
  ⟨by decide, by decide, by decide, by decide, by decide⟩

/-- C6 as amended: when the text has at least one non-empty line,
importing fails with `InvalidHeader` exactly when the header line does
not have exactly two (non-empty, trimmed) comma-separated fields, or
when its first field differs from `Date` *and* its second field
differs from `Weight`; a header carrying one of the two expected
names in its position is accepted. -/
theorem C6_header_validation_amended (cs : Str) :
    importData cs = .invalidHeader ↔
      ∃ header rest, importLines cs = header :: rest ∧
        (header.length ≠ 2 ∨
          (header.getD 0 [] ≠ dateHdr ∧ header.getD 1 [] ≠ weightHdr)) := by
  unfold importData
  cases h : importLines cs with
  | nil => simp
  | cons header rest =>
    dsimp only
    constructor
    · intro hi
      refine ⟨header, rest, rfl, ?_⟩
      by_contra hc
      push_neg at hc
      obtain ⟨h2, h3⟩ := hc
      rw [if_neg (by simp [h2])] at hi
      rw [if_neg (by intro hx; exact absurd hx.2 (by simpa using h3 hx.1))] at hi
      cases hb : importBody rest with
      | none => rw [hb] at hi; exact absurd hi (by simp)
      | some t => rw [hb] at hi; exact absurd hi (by simp)
    · rintro ⟨h', r', heq, hcond⟩
      have hh : header = h' := (List.cons.injEq _ _ _ _ ▸ heq).1
      subst hh
      rcases hcond with h2 | h3
      · rw [if_pos h2]
      · by_cases hlen : header.length ≠ 2
        · rw [if_pos hlen]
        · rw [if_neg hlen, if_pos h3]

/-! ## C7: a data row without a second field panics the import -/

/-- C7 (code bug): with a valid header, a data row having no
comma-separated second field (here the row `foo`) is not skipped —
the body pass indexes `x[1]` unconditionally and panics, instead of
dropping the row as the claim states. -/
theorem C7_one_field_row_panics :
    importData ("Date, Weight\nfoo\n".data) = .panicked := by decide

/-! ## C8: weight validation -/

/-- C8 counterexample: the text `inf` parses as positive infinity and
`inf > 0` holds for `f64`, so both validation sites accept it, while
the claim requires rejection of every non-finite value. -/
theorem C8_inf_accepted :
    parseF64 ['i', 'n', 'f'] = some PFloat.inf ∧
      validateWeightLive ['i', 'n', 'f'] = true ∧
      validateWeightSubmit ['i', 'n', 'f'] = true :=
  ⟨by decide, by decide, by decide⟩

/-- C8 as amended: weight validation succeeds iff the text parses
under the `f64` grammar and the resulting binary64 value is strictly
greater than zero — positive infinity is accepted (`inf`,
`+infinity`, ... are valid weights); NaN, all values `≤ 0`, and the
positive literals whose exact value is at most `2 ^ (-1075)` and so
underflow to `+0.0` (such as `1e-400`) are rejected — and the live
(`activate_text`) and submit (`handle_events` `Enter`) checks apply
the identical rule.  The two closing conjuncts exercise the rounding
threshold at concrete inputs: `1e-400` underflows and is rejected,
`90.1` is accepted. -/
theorem C8_weight_validation_amended :
    (∀ cs : Str,
      validateWeightLive cs = validateWeightSubmit cs ∧
        (validateWeightSubmit cs = true ↔
          (parseF64 cs = some .inf ∨
            ∃ q : ℚ, parseF64 cs = some (.finite q) ∧ (2 : ℚ) ^ (-1075 : ℤ) < q))) ∧
      validateWeightSubmit "1e-400".data = false ∧
      validateWeightSubmit "90.1".data = true := by
  refine ⟨fun cs => ⟨rfl, ?_⟩, ?_, ?_⟩
  · unfold validateWeightSubmit
    cases h : parseF64 cs with
    | none => simp
    | some w =>
      cases w with
      | nan => simp [PFloat.gtZero]
      | inf => simp [PFloat.gtZero]
      | neginf => simp [PFloat.gtZero]
      | finite q => simp [PFloat.gtZero]
  · have hp : parseF64 "1e-400".data =
        some (.finite (((digitsToNat ['1'] : ℚ) + 0) *
          (10 : ℚ) ^ ((-1 : ℤ) * ((digitsToNat ['4', '0', '0'] : ℕ) : ℤ)))) := rfl
    unfold validateWeightSubmit
    rw [hp]
    simp only [PFloat.gtZero, decide_eq_false_iff_not]
    rw [show digitsToNat ['1'] = 1 from rfl, show digitsToNat ['4', '0', '0'] = 400 from rfl]
    push_neg
    rw [show ((-1 : ℤ) * ((400 : ℕ) : ℤ)) = (-400 : ℤ) by norm_num]
    rw [zpow_neg, zpow_neg]
    rw [show ((2 : ℚ) ^ (1075 : ℤ)) = (2 : ℚ) ^ (1075 : ℕ) by norm_num]
    rw [show ((10 : ℚ) ^ (400 : ℤ)) = (10 : ℚ) ^ (400 : ℕ) by norm_num]
    rw [Nat.cast_one, add_zero, one_mul]
    exact inv_anti₀ (by positivity) (by norm_num)
  · have hp : parseF64 "90.1".data =
        some (.finite ((digitsToNat ['9', '0'] : ℚ) +
          (digitsToNat ['1'] : ℚ) / 10 ^ (['1'] : Str).length)) := rfl
    unfold validateWeightSubmit
    rw [hp]
    simp only [PFloat.gtZero, decide_eq_true_eq]
    rw [show digitsToNat ['9', '0'] = 90 from rfl, show digitsToNat ['1'] = 1 from rfl,
      show (['1'] : Str).length = 1 from rfl]
    have hle : (2 : ℚ) ^ (-1075 : ℤ) ≤ 1 := by norm_num
    have : (1 : ℚ) < ((90 : ℕ) : ℚ) + ((1 : ℕ) : ℚ) / 10 ^ (1 : ℕ) := by norm_num
    linarith


/-! ## C9: the two-press delete state machine -/


/-- C9 counterexample: (a) pressing a key other than `d` (here `j`)
while the deletion confirmation is armed leaves the armed flag set —
the claim says any other key press clears it; (b) the second `d`
removes the selected record but leaves the selection index unchanged
(`some 0`, while the last row of the two remaining records has index
1) — the claim says the selection re-targets the new last row. -/
theorem C9_armed_flag_and_selection_counterexample :
    ((handleKey (.ch 'd') stateC9).bind (fun s => handleKey (.ch 'j') s)).map
        (fun s => s.rm_confirm) = .ok true ∧
      ((handleKey (.ch 'd') stateC9).bind (fun s => handleKey (.ch 'd') s)).map
        (fun s => (s.selected, s.data.length)) = .ok (some 0, 2) :=
  ⟨by decide, by decide⟩

/-- C9 as amended: in Main/Table with a row selected, the first press
of d arms the confirmation flag and posts the warning banner without
touching the store; a second consecutive d removes the selected
record at its index, disarms the flag and clears the banner, leaving
the table selection index unchanged (the table widget clamps an
out-of-range selection to the last row only at render time); and no
other key press clears the armed flag inside the key handler (the
flag is otherwise cleared only by the banner timeout in the render
pass). -/
theorem C9_two_press_delete_amended (st : AppState) (i : Nat)
    (hw : st.current_window = .MainWindow) (hf : st.current_frame = .Table)
    (hrm : st.rm_confirm = false) (hsel : st.selected = some i)
    (hi : i < st.data.length) :
    handleKey (.ch 'd') st =
      .ok { st with rm_confirm := true, message := some (confirmMsg, .Warning) } ∧
    handleKey (.ch 'd')
        { st with rm_confirm := true, message := some (confirmMsg, .Warning) } =
      .ok { st with data := st.data.eraseIdx i, rm_confirm := false,
                    message := none, msg_time_set := false } ∧
    (∀ c : Char, c ≠ 'd' → ∀ s',
      handleKey (.ch c) { st with rm_confirm := true,
                                  message := some (confirmMsg, .Warning) } = .ok s' →
        s'.rm_confirm = true) := by
  refine ⟨?_, ?_, ?_⟩
  · unfold handleKey
    rw [hw]
    dsimp only
    rw [hf]
    dsimp only
    simp [hrm]
  · unfold handleKey
    dsimp only
    rw [hw]
    dsimp only
    rw [hf]
    dsimp only
    rw [hsel]
    simp only [if_neg (by decide : ¬('d' : Char) = 'q'),
      if_neg (by decide : ¬('d' : Char) = 'k'), if_neg (by decide : ¬('d' : Char) = 'j'),
      if_neg (by decide : ¬('d' : Char) = 'a'), if_neg (by decide : ¬('d' : Char) = 'e'),
      if_pos rfl]
    unfold modifyData
    dsimp only
    rw [if_pos hi]
    simp only [if_true]
    rw [dif_pos hi]
    rfl
  · intro c hc s' hok
    unfold handleKey at hok
    dsimp only at hok
    rw [hw] at hok
    dsimp only at hok
    rw [hf] at hok
    dsimp only at hok
    rw [if_neg hc] at hok
    split_ifs at hok with hq hk hj ha he
    · injection hok with h; rw [← h]
    · injection hok with h; rw [← h]
    · injection hok with h; rw [← h]
    · unfold initTextArea at hok
      dsimp only at hok
      injection hok with h; rw [← h]
    · unfold initTextArea at hok
      dsimp only at hok
      rw [hsel] at hok
      dsimp only at hok
      rw [dif_pos hi] at hok
      injection hok with h; rw [← h]
    · injection hok with h; rw [← h]

/-- Witness for the amended C9 at the concrete `stateC9`. -/
theorem C9_two_press_delete_amended_witness :
    stateC9.current_window = .MainWindow ∧ stateC9.current_frame = .Table ∧
      stateC9.rm_confirm = false ∧ stateC9.selected = some 0 ∧ 0 < stateC9.data.length ∧
      handleKey (.ch 'd') stateC9 =
        .ok { stateC9 with rm_confirm := true, message := some (confirmMsg, .Warning) } :=
  ⟨rfl, rfl, rfl, rfl, by decide,
    (C9_two_press_delete_amended stateC9 0 rfl rfl rfl rfl (by decide)).1⟩

/-! ## C10: deleting with no selection errors out of the event loop -/

/-- C10: with the confirmation armed and no row selected, pressing d
makes `handle_events` return the `No row is selected.` error, and
that error propagates through the event loop (whatever events are
still queued), terminating the run, instead of posting a banner and
continuing. -/
theorem C10_unselected_delete_errors (st : AppState) (ks : List KeyIn)
    (hw : st.current_window = .MainWindow) (hf : st.current_frame = .Table)
    (hrm : st.rm_confirm = true) (hsel : st.selected = none) (hcl : st.close = false) :
    handleKey (.ch 'd') st = .error (.ioError noRowMsg) ∧
      runEvents (.ch 'd' :: ks) st = .error (.ioError noRowMsg) := by
  have h1 : handleKey (.ch 'd') st = .error (.ioError noRowMsg) := by
    unfold handleKey
    rw [hw]
    dsimp only
    rw [hf]
    dsimp only
    simp [hrm, hsel]
  refine ⟨h1, ?_⟩
  unfold runEvents
  rw [if_neg (by rw [hcl]; exact Bool.false_ne_true), h1]


/-- Witness for C10 at `stateC10` with one further queued key. -/
theorem C10_unselected_delete_errors_witness :
    stateC10.current_window = .MainWindow ∧ stateC10.current_frame = .Table ∧
      stateC10.rm_confirm = true ∧ stateC10.selected = none ∧ stateC10.close = false ∧
      runEvents [.ch 'd', .ch 'j'] stateC10 = .error (.ioError noRowMsg) :=
  ⟨rfl, rfl, rfl, rfl, rfl,
    (C10_unselected_delete_errors stateC10 [.ch 'j'] rfl rfl rfl rfl rfl).2⟩

/-! ## Character classification facts -/

theorem ne_of_isDigit {c d : Char} (hd : d.isDigit = false) (h : c.isDigit = true) : c ≠ d := by
  intro he
  rw [he, hd] at h
  exact Bool.false_ne_true h

theorem isDigit_not_ws {c : Char} (h : c.isDigit = true) : c.isWhitespace = false := by
  cases hw : c.isWhitespace
  · rfl
  · simp [Char.isWhitespace] at hw
    rcases hw with ((h1 | h1) | h1) | h1 <;> (subst h1; simp at h)

theorem toLower_of_isDigit {c : Char} (h : c.isDigit = true) : c.toLower = c := by
  simp [Char.isDigit] at h
  obtain ⟨h1, h2⟩ := h
  rw [UInt32.le_def, BitVec.le_def] at h2
  unfold Char.toLower
  rw [if_neg]
  intro hcon
  obtain ⟨h3, _⟩ := hcon
  have he : Char.toNat c = c.val.toBitVec.toNat := rfl
  rw [he] at h3
  have : ((57 : UInt32)).toBitVec.toNat = 57 := rfl
  omega

/-! ## Digit strings -/

theorem digitChar_isDigit {d : Nat} (h : d < 10) : (Nat.digitChar d).isDigit = true := by
  interval_cases d <;> decide

theorem digitVal_digitChar {d : Nat} (h : d < 10) : digitVal (Nat.digitChar d) = d := by
  interval_cases d <;> decide

theorem digitsToNat_acc (l : Str) :
    ∀ a : Nat, l.foldl (fun a c => 10 * a + digitVal c) a =
      a * 10 ^ l.length + digitsToNat l := by
  induction l with
  | nil => intro a; simp [digitsToNat]
  | cons c t ih =>
    intro a
    rw [List.foldl_cons]
    rw [ih (10 * a + digitVal c)]
    unfold digitsToNat
    rw [List.foldl_cons]
    rw [ih (10 * 0 + digitVal c)]
    simp [List.length_cons]
    unfold digitsToNat
    ring

theorem digitsToNat_append_singleton (a : Str) (c : Char) :
    digitsToNat (a ++ [c]) = 10 * digitsToNat a + digitVal c := by
  unfold digitsToNat
  rw [List.foldl_append]
  simp

theorem natDigitsRev_all_digit : ∀ fuel n : Nat, ∀ c ∈ natDigitsRev fuel n, c.isDigit = true := by
  intro fuel
  induction fuel with
  | zero => intro n c hc; simp [natDigitsRev] at hc
  | succ fuel ih =>
    intro n c hc
    unfold natDigitsRev at hc
    by_cases hn : n = 0
    · simp [hn] at hc
    · rw [if_neg hn] at hc
      rcases List.mem_cons.mp hc with h | h
      · subst h; exact digitChar_isDigit (Nat.mod_lt n (by norm_num))
      · exact ih (n / 10) c h

theorem digitsToNat_natDigitsRev : ∀ fuel n : Nat, n ≤ fuel →
    digitsToNat (natDigitsRev fuel n).reverse = n := by
  intro fuel
  induction fuel with
  | zero =>
    intro n hn
    have : n = 0 := by omega
    subst this
    simp [natDigitsRev, digitsToNat]
  | succ fuel ih =>
    intro n hn
    unfold natDigitsRev
    by_cases hn0 : n = 0
    · simp [hn0, digitsToNat]
    · rw [if_neg hn0]
      rw [List.reverse_cons]
      rw [digitsToNat_append_singleton]
      rw [ih (n / 10) (by omega)]
      rw [digitVal_digitChar (Nat.mod_lt n (by norm_num))]
      omega

theorem natDigits_all_digit (n : Nat) : ∀ c ∈ natDigits n, c.isDigit = true := by
  intro c hc
  unfold natDigits at hc
  by_cases hn : n = 0
  · simp [hn] at hc; subst hc; decide
  · rw [if_neg hn] at hc
    exact natDigitsRev_all_digit n n c (List.mem_reverse.mp hc)

theorem natDigits_ne_nil (n : Nat) : natDigits n ≠ [] := by
  unfold natDigits
  by_cases hn : n = 0
  · simp [hn]
  · rw [if_neg hn]
    intro hc
    rw [List.reverse_eq_nil_iff] at hc
    unfold natDigitsRev at hc
    cases fuel_eq : n with
    | zero => exact hn fuel_eq
    | succ m =>
      rw [fuel_eq] at hc
      simp only at hc
      rw [if_neg (fuel_eq ▸ hn)] at hc
      exact List.cons_ne_nil _ _ hc

theorem digitsToNat_natDigits (n : Nat) : digitsToNat (natDigits n) = n := by
  unfold natDigits
  by_cases hn : n = 0
  · simp [hn]; decide
  · rw [if_neg hn]
    exact digitsToNat_natDigitsRev n n le_rfl

/-! ## takeWhile / dropWhile / span facts -/

theorem takeWhile_append_all {p : Char → Bool} :
    ∀ (a b : Str), (∀ c ∈ a, p c = true) →
      (a ++ b).takeWhile p = a ++ b.takeWhile p := by
  intro a
  induction a with
  | nil => intro b _; simp
  | cons c t ih =>
    intro b ha
    rw [List.cons_append, List.takeWhile_cons, if_pos (ha c (List.mem_cons_self _ _))]
    rw [ih b (fun x hx => ha x (List.mem_cons_of_mem c hx))]
    rfl

theorem dropWhile_append_all {p : Char → Bool} :
    ∀ (a b : Str), (∀ c ∈ a, p c = true) →
      (a ++ b).dropWhile p = b.dropWhile p := by
  intro a
  induction a with
  | nil => intro b _; simp
  | cons c t ih =>
    intro b ha
    rw [List.cons_append, List.dropWhile_cons, if_pos (ha c (List.mem_cons_self _ _))]
    exact ih b (fun x hx => ha x (List.mem_cons_of_mem c hx))

theorem takeWhile_cons_neg {p : Char → Bool} {c : Char} (b : Str) (hc : p c = false) :
    (c :: b).takeWhile p = [] := by
  rw [List.takeWhile_cons, if_neg (by simp [hc])]

theorem dropWhile_cons_neg {p : Char → Bool} {c : Char} (b : Str) (hc : p c = false) :
    (c :: b).dropWhile p = c :: b := by
  rw [List.dropWhile_cons, if_neg (by simp [hc])]

theorem spanChars_append_stop {p : Char → Bool} (a : Str) {c : Char} (b : Str)
    (ha : ∀ x ∈ a, p x = true) (hc : p c = false) :
    spanChars p (a ++ c :: b) = (a, c :: b) := by
  unfold spanChars
  rw [takeWhile_append_all a (c :: b) ha, dropWhile_append_all a (c :: b) ha,
    takeWhile_cons_neg b hc, dropWhile_cons_neg b hc, List.append_nil]

theorem takeWhile_all {p : Char → Bool} (a : Str) (ha : ∀ x ∈ a, p x = true) :
    a.takeWhile p = a := by
  have := takeWhile_append_all a [] ha
  simpa using this

theorem dropWhile_all {p : Char → Bool} (a : Str) (ha : ∀ x ∈ a, p x = true) :
    a.dropWhile p = [] := by
  have := dropWhile_append_all a [] ha
  simpa using this

theorem spanChars_all {p : Char → Bool} (a : Str) (ha : ∀ x ∈ a, p x = true) :
    spanChars p a = (a, []) := by
  unfold spanChars
  rw [takeWhile_all a ha, dropWhile_all a ha]

/-! ## Trimming facts -/

theorem dropWhile_eq_self_of_head {p : Char → Bool} :
    ∀ (cs : Str), (∀ c ∈ cs.take 1, p c = false) → cs.dropWhile p = cs := by
  intro cs h
  cases cs with
  | nil => rfl
  | cons c t => exact dropWhile_cons_neg t (h c (by simp))

theorem trimChars_eq_self {cs : Str} (h : ∀ c ∈ cs, c.isWhitespace = false) :
    trimChars cs = cs := by
  unfold trimChars
  rw [dropWhile_eq_self_of_head cs (fun c hc => h c (List.mem_of_mem_take hc))]
  rw [dropWhile_eq_self_of_head cs.reverse
    (fun c hc => h c (List.mem_reverse.mp (List.mem_of_mem_take hc)))]
  exact List.reverse_reverse cs

theorem trimChars_dropSpace {cs : Str} (h : ∀ c ∈ cs, c.isWhitespace = false) :
    trimChars (' ' :: cs) = cs := by
  unfold trimChars
  rw [List.dropWhile_cons, if_pos (by decide)]
  rw [dropWhile_eq_self_of_head cs (fun c hc => h c (List.mem_of_mem_take hc))]
  rw [dropWhile_eq_self_of_head cs.reverse
    (fun c hc => h c (List.mem_reverse.mp (List.mem_of_mem_take hc)))]
  exact List.reverse_reverse cs

/-! ## splitChars facts -/

theorem splitChars_ne_nil {p : Char → Bool} : ∀ cs : Str, splitChars p cs ≠ [] := by
  intro cs
  induction cs with
  | nil => simp [splitChars]
  | cons c t ih =>
    unfold splitChars
    by_cases hc : p c
    · simp [hc]
    · rw [if_neg (by simp [hc])]
      cases hs : splitChars p t with
      | nil => exact absurd hs ih
      | cons h l => simp

theorem splitChars_no_sep {p : Char → Bool} :
    ∀ cs : Str, (∀ c ∈ cs, p c = false) → splitChars p cs = [cs] := by
  intro cs
  induction cs with
  | nil => intro _; rfl
  | cons c t ih =>
    intro h
    unfold splitChars
    rw [if_neg (by simp [h c (List.mem_cons_self _ _)]), ih (fun x hx => h x (List.mem_cons_of_mem c hx))]

theorem splitChars_append_sep {p : Char → Bool} {sep : Char} (hsep : p sep = true) :
    ∀ (a b : Str), (∀ c ∈ a, p c = false) →
      splitChars p (a ++ sep :: b) = a :: splitChars p b := by
  intro a
  induction a with
  | nil => intro b _; simp [splitChars, hsep]
  | cons c t ih =>
    intro b ha
    rw [List.cons_append]
    conv_lhs => unfold splitChars
    rw [if_neg (by simp [ha c (List.mem_cons_self _ _)])]
    rw [ih b (fun x hx => ha x (List.mem_cons_of_mem c hx))]

/-! ## The float parser on formatted one-decimal output -/

theorem lowerEqStr_digit_head {c : Char} (hc : c.isDigit = true) (rest : Str)
    {t0 : Char} (ht : t0.isDigit = false) (t : Str) :
    lowerEqStr (c :: rest) (t0 :: t) = false := by
  unfold lowerEqStr
  rw [List.map_cons]
  simp only [decide_eq_false_iff_not]
  intro hcon
  rw [List.cons.injEq] at hcon
  have := hcon.1
  rw [toLower_of_isDigit hc] at this
  exact ne_of_isDigit ht hc this

theorem digitsToNat_singleton (c : Char) : digitsToNat [c] = digitVal c := by
  unfold digitsToNat
  simp

theorem parseF64Core_digits_dot_digit (a r : Nat) (hr : r < 10) :
    parseF64Core (natDigits a ++ '.' :: [Nat.digitChar r]) =
      some ((a : ℚ) + (r : ℚ) / 10) := by
  unfold parseF64Core
  rw [spanChars_append_stop (natDigits a) [Nat.digitChar r] (natDigits_all_digit a)
    (by decide)]
  dsimp only
  rw [if_pos rfl]
  rw [spanChars_all [Nat.digitChar r] (by
    intro x hx
    rcases List.mem_singleton.mp hx with rfl
    exact digitChar_isDigit hr)]
  dsimp only
  rw [if_neg (by
    simp only [Bool.and_eq_true, List.isEmpty_iff]
    intro hcon
    exact natDigits_ne_nil a hcon.1)]
  rw [digitsToNat_natDigits, digitsToNat_singleton, digitVal_digitChar hr]
  norm_num

theorem parseF64_digits_dot_digit (A B : Nat) (hB : B < 10) :
    parseF64 (natDigits A ++ '.' :: [Nat.digitChar B]) =
      some (.finite ((A : ℚ) + (B : ℚ) / 10)) := by
  obtain ⟨c, rest, hnd, hcdig⟩ : ∃ c rest, natDigits A = c :: rest ∧ c.isDigit = true := by
    cases h : natDigits A with
    | nil => exact absurd h (natDigits_ne_nil A)
    | cons c rest => exact ⟨c, rest, rfl, natDigits_all_digit A c (h ▸ List.mem_cons_self _ _)⟩
  unfold parseF64
  rw [hnd, List.cons_append]
  dsimp only
  rw [if_neg (ne_of_isDigit (by decide) hcdig), if_neg (ne_of_isDigit (by decide) hcdig)]
  dsimp only
  rw [lowerEqStr_digit_head hcdig _ (by decide) _, lowerEqStr_digit_head hcdig _ (by decide) _,
    lowerEqStr_digit_head hcdig _ (by decide) _]
  simp only [Bool.or_self, Bool.false_eq_true, if_false]
  rw [← List.cons_append, ← hnd]
  rw [parseF64Core_digits_dot_digit A B hB]

theorem parseF64_neg_digits_dot_digit (A B : Nat) (hB : B < 10) :
    parseF64 ('-' :: (natDigits A ++ '.' :: [Nat.digitChar B])) =
      some (.finite (-((A : ℚ) + (B : ℚ) / 10))) := by
  obtain ⟨c, rest, hnd, hcdig⟩ : ∃ c rest, natDigits A = c :: rest ∧ c.isDigit = true := by
    cases h : natDigits A with
    | nil => exact absurd h (natDigits_ne_nil A)
    | cons c rest => exact ⟨c, rest, rfl, natDigits_all_digit A c (h ▸ List.mem_cons_self _ _)⟩
  unfold parseF64
  dsimp only
  rw [if_neg (by decide : ¬('-' : Char) = '+'), if_pos (rfl : ('-' : Char) = '-')]
  dsimp only
  rw [hnd, List.cons_append]
  rw [lowerEqStr_digit_head hcdig _ (by decide) _, lowerEqStr_digit_head hcdig _ (by decide) _,
    lowerEqStr_digit_head hcdig _ (by decide) _]
  simp only [Bool.or_self, Bool.false_eq_true, if_false]
  rw [← List.cons_append, ← hnd]
  rw [parseF64Core_digits_dot_digit A B hB]
  simp

theorem roundHalfEven_intCast (k : Int) : roundHalfEven ((k : ℚ)) = k := by
  unfold roundHalfEven
  rw [Int.floor_intCast]
  norm_num

theorem natAbs_div_add_mod_q (n : Nat) :
    ((n / 10 : Nat) : ℚ) + ((n % 10 : Nat) : ℚ) / 10 = (n : ℚ) / 10 := by
  have hd : 10 * (n / 10) + n % 10 = n := Nat.div_add_mod n 10
  conv_rhs => rw [← hd]
  push_cast
  ring

/-- Formatting a weight that is an exact multiple of one tenth with
`{:.1}` and parsing it back returns exactly the same value. -/
theorem parseF64_fmtFixed1_tenths (m : Int) :
    parseF64 (fmtFixed1 (.finite ((m : ℚ) / 10))) = some (.finite ((m : ℚ) / 10)) := by
  unfold fmtFixed1
  dsimp only
  have habs : |(m : ℚ) / 10| * 10 = (((m.natAbs : ℤ) : ℚ)) := by
    rw [abs_div, abs_of_pos (by norm_num : (0:ℚ) < 10),
      div_mul_cancel₀ _ (by norm_num : (10:ℚ) ≠ 0)]
    push_cast [Int.cast_natAbs]
    ring
  have h2 : (roundHalfEven (|(m : ℚ) / 10| * 10)).toNat = m.natAbs := by
    rw [habs, roundHalfEven_intCast]
    exact Int.toNat_natCast m.natAbs
  rw [h2]
  have hmod : m.natAbs % 10 < 10 := Nat.mod_lt _ (by norm_num)
  have hq : ((m.natAbs / 10 : Nat) : ℚ) + ((m.natAbs % 10 : Nat) : ℚ) / 10 =
      |(m : ℚ)| / 10 := by
    rw [natAbs_div_add_mod_q]
    congr 1
    push_cast [Int.cast_natAbs]
    ring
  by_cases hm : (m : ℚ) / 10 < 0
  · rw [if_pos hm]
    have hm' : (m : ℚ) < 0 := by
      by_contra hge
      push_neg at hge
      have : (0:ℚ) ≤ (m : ℚ) / 10 := by positivity
      linarith
    rw [List.append_assoc, List.singleton_append]
    rw [parseF64_neg_digits_dot_digit (m.natAbs / 10) (m.natAbs % 10) hmod]
    rw [hq, abs_of_neg hm']
    ring_nf
  · rw [if_neg hm]
    push_neg at hm
    have hm' : (0:ℚ) ≤ (m : ℚ) := by
      by_contra hlt
      push_neg at hlt
      have : (m : ℚ) / 10 < 0 := by
        apply div_neg_of_neg_of_pos hlt
        norm_num
      linarith
    rw [List.nil_append]
    rw [parseF64_digits_dot_digit (m.natAbs / 10) (m.natAbs % 10) hmod]
    rw [hq, abs_of_nonneg hm']

/-! ## Character cleanliness of dates and formatted weights -/

theorem cleanChar_not_ws {c : Char} (h : c.isDigit = true ∨ c = '-' ∨ c = '.') :
    c.isWhitespace = false := by
  rcases h with h | h | h
  · exact isDigit_not_ws h
  · subst h; decide
  · subst h; decide

theorem cleanChar_ne_comma {c : Char} (h : c.isDigit = true ∨ c = '-' ∨ c = '.') :
    (c = ',') = False := by
  simp only [eq_iff_iff, iff_false]
  rcases h with h | h | h
  · exact ne_of_isDigit (by decide) h
  · subst h; decide
  · subst h; decide

theorem cleanChar_not_linebreak {c : Char} (h : c.isDigit = true ∨ c = '-' ∨ c = '.') :
    isLineBreak c = false := by
  unfold isLineBreak
  rcases h with h | h | h
  · simp only [Bool.or_eq_false_iff, decide_eq_false_iff_not]
    exact ⟨ne_of_isDigit (by decide) h, ne_of_isDigit (by decide) h⟩
  · subst h; decide
  · subst h; decide

theorem fmtFixed1_finite_chars (q : ℚ) :
    ∀ c ∈ fmtFixed1 (.finite q), c.isDigit = true ∨ c = '-' ∨ c = '.' := by
  unfold fmtFixed1
  dsimp only
  intro c hc
  rcases List.mem_append.mp hc with h | h
  · rcases List.mem_append.mp h with h1 | h1
    · split at h1
      · rcases List.mem_singleton.mp h1 with rfl
        right; left; rfl
      · simp at h1
    · left; exact natDigits_all_digit _ c h1
  · rcases List.mem_cons.mp h with rfl | h1
    · right; right; rfl
    · rcases List.mem_singleton.mp h1 with rfl
      left; exact digitChar_isDigit (Nat.mod_lt _ (by norm_num))

theorem fmtFixed1_finite_ne_nil (q : ℚ) : fmtFixed1 (.finite q) ≠ [] := by
  unfold fmtFixed1
  dsimp only
  intro h
  rcases List.append_eq_nil.mp h with ⟨-, h2⟩
  exact List.cons_ne_nil _ _ h2

theorem parseDate_chars {s : Str} {dt : Date} (h : parseDate s = some dt) :
    s ≠ [] ∧ ∀ c ∈ s, c.isDigit = true ∨ c = '-' := by
  rcases s with _ | ⟨a0, s⟩
  · simp [parseDate] at h
  rcases s with _ | ⟨a1, s⟩
  · simp [parseDate] at h
  rcases s with _ | ⟨a2, s⟩
  · simp [parseDate] at h
  rcases s with _ | ⟨a3, s⟩
  · simp [parseDate] at h
  rcases s with _ | ⟨a4, s⟩
  · simp [parseDate] at h
  rcases s with _ | ⟨a5, s⟩
  · simp [parseDate] at h
  rcases s with _ | ⟨a6, s⟩
  · simp [parseDate] at h
  rcases s with _ | ⟨a7, s⟩
  · simp [parseDate] at h
  rcases s with _ | ⟨a8, s⟩
  · simp [parseDate] at h
  rcases s with _ | ⟨a9, s⟩
  · simp [parseDate] at h
  rcases s with _ | ⟨a10, s⟩
  · refine ⟨List.cons_ne_nil _ _, ?_⟩
    unfold parseDate at h
    dsimp only at h
    split_ifs at h with hc hv
    · simp only [Bool.and_eq_true, decide_eq_true_eq] at hc
      obtain ⟨⟨⟨⟨⟨⟨⟨⟨⟨hd1, hd2⟩, hh1⟩, hm1⟩, hm2⟩, hh2⟩, hy1⟩, hy2⟩, hy3⟩, hy4⟩ := hc
      intro c hcm
      simp only [List.mem_cons, List.not_mem_nil, or_false] at hcm
      rcases hcm with rfl | rfl | rfl | rfl | rfl | rfl | rfl | rfl | rfl | rfl
      · exact Or.inl hd1
      · exact Or.inl hd2
      · exact Or.inr hh1
      · exact Or.inl hm1
      · exact Or.inl hm2
      · exact Or.inr hh2
      · exact Or.inl hy1
      · exact Or.inl hy2
      · exact Or.inl hy3
      · exact Or.inl hy4
  · simp [parseDate] at h

/-! ## Line-level processing of exported text -/

theorem trimChars_eq_self_of_ends {cs : Str}
    (h1 : ∀ c ∈ cs.take 1, c.isWhitespace = false)
    (h2 : ∀ c ∈ cs.reverse.take 1, c.isWhitespace = false) :
    trimChars cs = cs := by
  unfold trimChars
  rw [dropWhile_eq_self_of_head cs h1, dropWhile_eq_self_of_head cs.reverse h2,
    List.reverse_reverse]

theorem take_one_append_left {a b : Str} (ha : a ≠ []) : (a ++ b).take 1 = a.take 1 := by
  cases a with
  | nil => exact absurd rfl ha
  | cons c t => simp

theorem lineFields_row {d : Str} {dt : Date} (hd : parseDate d = some dt) (f : Str)
    (hfclean : ∀ c ∈ f, c.isDigit = true ∨ c = '-' ∨ c = '.') (hfne : f ≠ []) :
    lineFields (d ++ ',' :: ' ' :: f) = [d, f] := by
  obtain ⟨hdne, hdchars⟩ := parseDate_chars hd
  have hdclean : ∀ c ∈ d, c.isDigit = true ∨ c = '-' ∨ c = '.' :=
    fun c hc => (hdchars c hc).elim Or.inl (fun h => Or.inr (Or.inl h))
  have hdnws : ∀ c ∈ d, c.isWhitespace = false := fun c hc => cleanChar_not_ws (hdclean c hc)
  have hfnws : ∀ c ∈ f, c.isWhitespace = false := fun c hc => cleanChar_not_ws (hfclean c hc)
  unfold lineFields
  have htrim : trimChars (d ++ ',' :: ' ' :: f) = d ++ ',' :: ' ' :: f := by
    apply trimChars_eq_self_of_ends
    · rw [take_one_append_left hdne]
      intro c hc
      exact hdnws c (List.mem_of_mem_take hc)
    · rw [show (d ++ ',' :: ' ' :: f : Str) = (d ++ [',', ' ']) ++ f by simp]
      rw [List.reverse_append]
      rw [take_one_append_left (by simp [hfne])]
      intro c hc
      exact hfnws c (List.mem_reverse.mp (List.mem_of_mem_take hc))
  rw [htrim]
  have hsplit : splitChars (fun c => c = ',') (d ++ ',' :: ' ' :: f) = [d, ' ' :: f] := by
    rw [splitChars_append_sep (by simp) d (' ' :: f)
      (fun c hc => by simpa using cleanChar_ne_comma (hdclean c hc))]
    rw [splitChars_no_sep (' ' :: f) ?_]
    intro c hc
    rcases List.mem_cons.mp hc with rfl | hc
    · decide
    · simpa using cleanChar_ne_comma (hfclean c hc)
  rw [hsplit]
  rw [List.filterMap_cons, List.filterMap_cons, List.filterMap_nil]
  rw [if_neg (by simpa [List.isEmpty_iff] using hdne)]
  rw [if_neg (by simp [List.isEmpty_iff])]
  rw [trimChars_eq_self hdnws, trimChars_dropSpace hfnws]

theorem splitChars_flat_rows :
    ∀ rows : List Str, (∀ r ∈ rows, ∀ c ∈ r, isLineBreak c = false) →
      splitChars isLineBreak (rows.flatMap (fun r => r ++ ['\n'])) = rows ++ [[]] := by
  intro rows
  induction rows with
  | nil => intro _; rfl
  | cons r t ih =>
    intro h
    rw [List.flatMap_cons]
    rw [show ((r ++ ['\n']) ++ t.flatMap (fun r => r ++ ['\n']) : Str) =
      r ++ '\n' :: t.flatMap (fun r => r ++ ['\n']) by simp]
    rw [splitChars_append_sep (by decide) r _ (h r (List.mem_cons_self _ _))]
    rw [ih (fun x hx => h x (List.mem_cons_of_mem r hx))]
    rfl

theorem filterMap_all_some {α β : Type} (f : α → Option β) (g : α → β) :
    ∀ l : List α, (∀ a ∈ l, f a = some (g a)) → l.filterMap f = l.map g := by
  intro l
  induction l with
  | nil => intro _; rfl
  | cons a t ih =>
    intro h
    rw [List.filterMap_cons, h a (List.mem_cons_self _ _), List.map_cons,
      ih (fun x hx => h x (List.mem_cons_of_mem a hx))]

/-! ## The import of an exported store -/

theorem row_ne_nil (e : Entry) : (e.1 ++ ',' :: ' ' :: fmtFixed1 e.2 : Str) ≠ [] := by
  cases h : e.1 with
  | nil => simp
  | cons c t => simp

theorem splitChars_export_body :
    ∀ store : List Entry,
      (∀ e ∈ store, ∀ c ∈ (e.1 ++ ',' :: ' ' :: fmtFixed1 e.2 : Str), isLineBreak c = false) →
      splitChars isLineBreak
          (store.flatMap (fun e => e.1 ++ ',' :: ' ' :: fmtFixed1 e.2 ++ ['\n'])) =
        store.map (fun e => e.1 ++ ',' :: ' ' :: fmtFixed1 e.2) ++ [[]] := by
  intro store
  induction store with
  | nil => intro _; rfl
  | cons e t ih =>
    intro h
    rw [List.flatMap_cons]
    rw [show ((e.1 ++ ',' :: ' ' :: fmtFixed1 e.2 ++ ['\n']) ++
        t.flatMap (fun e => e.1 ++ ',' :: ' ' :: fmtFixed1 e.2 ++ ['\n']) : Str) =
        (e.1 ++ ',' :: ' ' :: fmtFixed1 e.2) ++
          '\n' :: t.flatMap (fun e => e.1 ++ ',' :: ' ' :: fmtFixed1 e.2 ++ ['\n']) by simp]
    rw [splitChars_append_sep (by decide) _ _ (h e (List.mem_cons_self _ _))]
    rw [ih (fun x hx => h x (List.mem_cons_of_mem e hx))]
    rfl

theorem importLines_export (store : List Entry)
    (hvalid : ∀ e ∈ store, (parseDate e.1).isSome = true)
    (hfin : ∀ e ∈ store, ∃ m : ℤ, e.2 = .finite ((m : ℚ) / 10)) :
    importLines (exportData store) =
      [dateHdr, weightHdr] :: store.map (fun e => [e.1, fmtFixed1 e.2]) := by
  have hrowclean : ∀ e ∈ store, ∀ c ∈ (e.1 ++ ',' :: ' ' :: fmtFixed1 e.2 : Str),
      isLineBreak c = false := by
    intro e he c hc
    rcases List.mem_append.mp hc with h | h
    · obtain ⟨dt, hdt⟩ := Option.isSome_iff_exists.mp (hvalid e he)
      have := (parseDate_chars hdt).2 c h
      exact cleanChar_not_linebreak (this.elim Or.inl (fun hx => Or.inr (Or.inl hx)))
    · rcases List.mem_cons.mp h with rfl | h
      · decide
      · rcases List.mem_cons.mp h with rfl | h
        · decide
        · obtain ⟨m, hm⟩ := hfin e he
          rw [hm] at h
          exact cleanChar_not_linebreak (fmtFixed1_finite_chars _ c h)
  have hlines : splitChars isLineBreak (exportData store) =
      (dateHdr ++ ',' :: ' ' :: weightHdr) ::
        (store.map (fun e => e.1 ++ ',' :: ' ' :: fmtFixed1 e.2) ++ [[]]) := by
    unfold exportData
    rw [splitChars_append_sep (by decide) _ _ (by decide)]
    rw [splitChars_export_body store hrowclean]
  unfold importLines
  rw [hlines, List.filterMap_cons]
  rw [show (if (dateHdr ++ ',' :: ' ' :: weightHdr : Str).isEmpty then none
      else some (lineFields (dateHdr ++ ',' :: ' ' :: weightHdr))) =
      some [dateHdr, weightHdr] from by decide]
  rw [List.filterMap_append]
  rw [show (List.filterMap
      (fun x => if x.isEmpty then none else some (lineFields x)) [[]] : List (List Str)) = []
      from by decide]
  rw [List.append_nil]
  rw [filterMap_all_some _ lineFields _ ?_]
  · rw [List.map_map]
    dsimp only
    congr 1
    apply List.map_congr_left
    intro e he
    obtain ⟨dt, hdt⟩ := Option.isSome_iff_exists.mp (hvalid e he)
    obtain ⟨m, hm⟩ := hfin e he
    show lineFields (e.1 ++ ',' :: ' ' :: fmtFixed1 e.2) = [e.1, fmtFixed1 e.2]
    rw [hm]
    exact lineFields_row hdt _ (fmtFixed1_finite_chars _) (fmtFixed1_finite_ne_nil _)
  · intro r hr
    obtain ⟨e, he, rfl⟩ := List.mem_map.mp hr
    rw [if_neg (by simp [List.isEmpty_iff, row_ne_nil e])]

theorem importBody_export (store : List Entry)
    (hfin : ∀ e ∈ store, ∃ m : ℤ, e.2 = .finite ((m : ℚ) / 10)) :
    importBody (store.map (fun e => [e.1, fmtFixed1 e.2])) = some store := by
  induction store with
  | nil => rfl
  | cons e t ih =>
    rw [List.map_cons]
    unfold importBody
    obtain ⟨m, hm⟩ := hfin e (List.mem_cons_self _ _)
    have hclean : ∀ c ∈ fmtFixed1 e.2, c.isWhitespace = false := by
      intro c hc
      rw [hm] at hc
      exact cleanChar_not_ws (fmtFixed1_finite_chars _ c hc)
    rw [show (([e.1, fmtFixed1 e.2] : List Str).get? 1) = some (fmtFixed1 e.2) from rfl]
    dsimp only
    rw [trimChars_eq_self hclean]
    rw [hm, parseF64_fmtFixed1_tenths m, ← hm]
    dsimp only
    rw [ih (fun x hx => hfin x (List.mem_cons_of_mem e hx))]
    rfl

/-! ## C3: export / import round trip -/

/-- C3: for every store whose dates are unique valid `DD-MM-YYYY`
dates and whose weights are exactly representable with one decimal
place, importing the text produced by export replaces the store with
exactly the same list of records — hence, in particular, the same set
of `(date, weight)` records, independent of order. -/
theorem C3_import_export_round_trip (store : List Entry)
    (hvalid : ∀ e ∈ store, (parseDate e.1).isSome = true)
    (_huniq : store.Pairwise (fun a b => entryDate a ≠ entryDate b))
    (hfin : ∀ e ∈ store, ∃ m : ℤ, e.2 = .finite ((m : ℚ) / 10)) :
    importData (exportData store) = .okReplace store := by
  unfold importData
  rw [importLines_export store hvalid hfin]
  dsimp only
  rw [if_neg (by decide)]
  rw [if_neg (by decide)]
  rw [importBody_export store hfin]

/-- Witness for C3 at the concrete two-record `storeC3`. -/
theorem C3_import_export_round_trip_witness :
    (∀ e ∈ storeC3, (parseDate e.1).isSome = true) ∧
      storeC3.Pairwise (fun a b => entryDate a ≠ entryDate b) ∧
      (∀ e ∈ storeC3, ∃ m : ℤ, e.2 = .finite ((m : ℚ) / 10)) ∧
      importData (exportData storeC3) = .okReplace storeC3 := by
  have hfin : ∀ e ∈ storeC3, ∃ m : ℤ, e.2 = .finite ((m : ℚ) / 10) := by
    intro e he
    rcases List.mem_cons.mp he with rfl | he
    · exact ⟨901, by norm_num⟩
    rcases List.mem_cons.mp he with rfl | he
    · exact ⟨800, by norm_num⟩
    · exact absurd he (List.not_mem_nil e)
  exact ⟨by decide, by decide, hfin,
    C3_import_export_round_trip storeC3 (by decide) (by decide) hfin⟩
